import Mathlib

/-!
Verification of `src/statistics/__init__.py` of the repository
`pikalab-unibo/ski-data-robustness-experiments-2023`.

Shallow embedding conventions:
* A pandas `DataFrame` is modelled as an ordered list of named columns of
  rational values (`Table`).  Floating-point numbers are idealised as
  rationals; the `np.nan` cells that appear inside the splice-junction noise
  transform are modelled with `Option ℚ` (`none` = NaN, which compares false
  under `<`, `>` and `==`, exactly like float NaN).
* numpy's global random generator is modelled by an abstract environment
  `Env`: `Env.streams s` is the sequence of standard-normal draws produced
  after `np.random.seed s` (a call `np.random.normal (mu, sigma)` returns
  `mu + sigma * z` where `z` is the next draw of the active stream);
  `Env.choice4` / `Env.choiceList` are the outcomes of
  `np.random.choice(lst, len(lst), replace=False)` — a permutation of the
  list, as a function of the stream the call consumes; `Env.coin` is the
  outcome of `np.random.choice([1,0], p=[p,1-p])` and `Env.pick` the index
  drawn by `np.random.choice(lst)` at a given position of the stream.
  All nondeterminism of the Python code lives in these parameters.
* The numerically interesting float linear algebra inside `_compute_kl_div`
  (means, covariances, determinants, `np.linalg.inv`) cannot be embedded
  exactly over the rationals; it is abstracted by an oracle
  `raw : Table → Table → FVal` producing a float-like value (`FVal` is a
  rational extended with NaN and the two infinities).  Everything around the
  oracle — the degenerate-feature pruning and the stability guards — is
  translated from the source.
-/

/-- A pandas `DataFrame`: ordered list of named columns of rational values. -/
abbrev Table := List (String × List ℚ)

deriving instance DecidableEq for Except

namespace Table

/-- Column lookup by label, first match (`data[name]`). -/
def find? : Table → String → Option (List ℚ)
  | [], _ => none
  | (m, c) :: t, n => if m = n then some c else find? t n

/-- Column values of a label (used only where the source guarantees presence). -/
def getCol (t : Table) (n : String) : List ℚ := (t.find? n).getD []

/-- `name in data` test. -/
def hasCol (t : Table) (n : String) : Bool := (t.find? n).isSome

/-- `data[name] = col`: replace the (first) column with that label, or append a
new column at the end when the label is absent — pandas assignment semantics. -/
def setCol : Table → String → List ℚ → Table
  | [], n, v => [(n, v)]
  | (m, c) :: t, n, v => if m = n then (m, v) :: t else (m, c) :: setCol t n v

/-- `data.columns`. -/
def names (t : Table) : List String := t.map Prod.fst

/-- `data.drop(columns, axis=1)`. -/
def dropCols (t : Table) (cs : List String) : Table :=
  t.filter (fun p => !decide (p.1 ∈ cs))

/-- `len(data.index)` for a table with columns of uniform length. -/
def nrows (t : Table) : ℕ := match t with | [] => 0 | (_, c) :: _ => c.length

/-- All columns have length `n` (well-formedness of a `DataFrame`). -/
def Uniform (t : Table) (n : ℕ) : Prop := ∀ p ∈ t, p.2.length = n

/-- Row `i` restricted to the columns `cs`, in that order (`data[cs]`, row `i`). -/
def rowAt (t : Table) (cs : List String) (i : ℕ) : List ℚ :=
  cs.map fun c => (t.getCol c).getD i 0

end Table

/-- State of numpy's global generator: the active stream of standard-normal
draws together with the position of the next draw. -/
structure RNG where
  stream : ℕ → ℚ
  idx : ℕ

/-- `np.random.normal(mu, sigma)`: consume the next standard-normal draw. -/
def RNG.draw (r : RNG) (mu sigma : ℚ) : ℚ × RNG :=
  (mu + sigma * r.stream r.idx, ⟨r.stream, r.idx + 1⟩)

/-- Abstract model of numpy's seeded global random generator (see the header). -/
structure Env where
  streams : ℕ → ℕ → ℚ
  choice4 : (ℕ → ℚ) → Equiv.Perm (Fin 4)
  choiceList : (ℕ → ℚ) → (n : ℕ) → Equiv.Perm (Fin n)
  coin : (ℕ → ℚ) → ℕ → ℚ → Bool
  pick : (ℕ → ℚ) → ℕ → ℕ

/-- `np.random.seed(seed)`: reset the generator to the stream of that seed. -/
def seedRNG (E : Env) (seed : ℕ) : RNG := ⟨E.streams seed, 0⟩

/-- Python's builtin `round` (round half to even) on an idealised rational,
computed on the numerator and denominator: `f` is the floor of `q` and `r` its
remainder, so `q - f = r / den`; the fractional part is compared with one half
and a tie goes to the even neighbour. -/
def pyRound (q : ℚ) : ℤ :=
  let f := Int.fdiv q.num q.den
  let r := q.num - f * (q.den : ℤ)
  if 2 * r < (q.den : ℤ) then f
  else if (q.den : ℤ) < 2 * r then f + 1
  else if f % 2 = 0 then f else f + 1

/-- `Series.max()` of a column (`none` — pandas NaN — for an empty column). -/
def colMax : List ℚ → Option ℚ
  | [] => none
  | x :: xs =>
    match colMax xs with
    | none => some x
    | some m => some (if x ≤ m then m else x)

/-- `Series.min()` of a column (`none` — pandas NaN — for an empty column). -/
def colMin : List ℚ → Option ℚ
  | [] => none
  | x :: xs =>
    match colMin xs with
    | none => some x
    | some m => some (if m ≤ x then m else x)

/-- `bound if j > bound else j`; with a NaN bound (empty column) the comparison
is false and `j` is kept. -/
def clampAbove (b : Option ℚ) (j : ℚ) : ℚ :=
  match b with | none => j | some m => if m < j then m else j

/-- `bound if j < bound else j`; NaN bound keeps `j`. -/
def clampBelow (b : Option ℚ) (j : ℚ) : ℚ :=
  match b with | none => j | some m => if j < m then m else j

/-- `np.argmax` over a row: index of the first occurrence of the maximum. -/
def argmaxAux : List ℚ → ℚ → ℕ → ℕ → ℕ
  | [], _, _, best => best
  | x :: xs, cur, i, best =>
    if cur < x then argmaxAux xs x (i + 1) i else argmaxAux xs cur (i + 1) best

/-- `np.argmax` of a list (the source only applies it to nonempty rows; on the
empty row numpy raises, we return 0). -/
def argmaxIdx : List ℚ → ℕ
  | [] => 0
  | x :: xs => argmaxAux xs x 1 0

/-- `Series.apply` of a draw-consuming lambda: one normal draw per row, in row
order (`lambda j: g j (np.random.normal(mu, sigma))`). -/
def mapNoise (g : ℚ → ℚ → ℚ) (mu sigma : ℚ) : List ℚ → RNG → List ℚ × RNG
  | [], r => ([], r)
  | x :: xs, r =>
    let p := r.draw mu sigma
    let q := mapNoise g mu sigma xs p.2
    (g x p.1 :: q.1, q.2)

/-- Pointwise combination of four equal-length columns (`pd.DataFrame(cols).T`
followed by a row-wise `apply`). -/
def zip4With (f : Option ℚ → Option ℚ → Option ℚ → Option ℚ → ℚ) :
    List (Option ℚ) → List (Option ℚ) → List (Option ℚ) → List (Option ℚ) → List ℚ
  | a :: as, b :: bs, c :: cs, d :: ds => f a b c d :: zip4With f as bs cs ds
  | _, _, _, _ => []

/-- Errors surfaced by the Python code: `ValueError('The dataset name is not
valid.')`, `ValueError('The two datasets appear to have different labels!')`,
the `assert` on label sets, the `KeyError` raised by `data['class']` inside
`reverse_multi_hot`, the `IndexError` of `iloc` on a table with fewer than 240
columns, the `ValueError` of `np.argmax` on an empty block, and the
`ValueError` of `np.random.choice` on an empty candidate list. -/
inductive Err
  | invalidDataset
  | labelMismatch
  | assertFailed
  | classKeyError
  | shapeError
  | emptyBlock
  | emptyChoice
  deriving DecidableEq, Repr

/-! ## Noise injectors (`apply_noise` and helpers) -/

/-- `_add_noise_to_ordinal_feature` (lines 31–44): observed min/max of the
column, then `round(j + normal(mu, sigma))` per row, then clamp above, then
clamp below; the three passes are separate column assignments in the source. -/
def add_noise_to_ordinal_feature (feature : String) (data : Table)
    (mu sigma : ℚ) (r : RNG) : Table × RNG :=
  let M := colMax (data.getCol feature)
  let m := colMin (data.getCol feature)
  let p := mapNoise (fun j d => ((pyRound (j + d) : ℤ) : ℚ)) mu sigma (data.getCol feature) r
  let d1 := data.setCol feature p.1
  let d2 := d1.setCol feature ((d1.getCol feature).map (clampAbove M))
  let d3 := d2.setCol feature ((d2.getCol feature).map (clampBelow m))
  (d3, p.2)

/-- `_apply_noise_to_breast_cancer` (lines 47–52): seed once, then noise every
column of the table (the label column `diagnosis` included) in column order. -/
def apply_noise_to_breast_cancer (E : Env) (data : Table) (mu sigma : ℚ)
    (seed : ℕ) : Table :=
  ((data.names).foldl
    (fun s feature => add_noise_to_ordinal_feature feature s.1 mu sigma s.2)
    (data, seedRNG E seed)).1

/-- The fixed basis permutation of `_apply_noise_to_splice_junction`
(lines 62–63): `np.random.seed(0)` followed by
`np.random.choice(['a','c','g','t'], 4, replace=False)`; the outcome is a
permutation of the four bases and depends only on the constant seed 0 —
the perturbation `seed` argument is not consulted. -/
def spliceBasisOrder (E : Env) (seed : ℕ) : Equiv.Perm (Fin 4) :=
  E.choice4 (E.streams 0)

/-- One column of a group: `data_copy[feature].apply(lambda k: round(bm + normal)
if k == 1 else np.nan)`.  A normal draw is consumed only on rows whose value is
exactly 1. -/
def spliceNoiseCol (mu sigma target : ℚ) : List ℚ → RNG → List (Option ℚ) × RNG
  | [], r => ([], r)
  | k :: ks, r =>
    if k = 1 then
      let p := r.draw mu sigma
      let q := spliceNoiseCol mu sigma target ks p.2
      (some ((pyRound (target + p.1) : ℤ) : ℚ) :: q.1, q.2)
    else
      let q := spliceNoiseCol mu sigma target ks r
      (none :: q.1, q.2)

/-- `3 if k > 3 else k` on a possibly-NaN cell. -/
def spliceClampHi (k : Option ℚ) : Option ℚ :=
  match k with | none => none | some v => if 3 < v then some 3 else some v

/-- `0 if k < 0 else k` on a possibly-NaN cell. -/
def spliceClampLo (k : Option ℚ) : Option ℚ :=
  match k with | none => none | some v => if v < 0 then some 0 else some v

/-- One group of 4 columns of `_apply_noise_to_splice_junction` (lines 67–80):
noise the four columns (in order, consuming draws), clamp to `[0,3]`, then the
output column for slot `j` is 1 iff the mapped basis index of slot `j` occurs
among the four (possibly NaN) values of the row. -/
def spliceGroup (mu sigma : ℚ) (bm : Fin 4 → ℚ) (c0 c1 c2 c3 : String)
    (t : Table) (r : RNG) : Table × RNG :=
  let p0 := spliceNoiseCol mu sigma (bm 0) (t.getCol c0) r
  let p1 := spliceNoiseCol mu sigma (bm 1) (t.getCol c1) p0.2
  let p2 := spliceNoiseCol mu sigma (bm 2) (t.getCol c2) p1.2
  let p3 := spliceNoiseCol mu sigma (bm 3) (t.getCol c3) p2.2
  let n0 := (p0.1.map spliceClampHi).map spliceClampLo
  let n1 := (p1.1.map spliceClampHi).map spliceClampLo
  let n2 := (p2.1.map spliceClampHi).map spliceClampLo
  let n3 := (p3.1.map spliceClampHi).map spliceClampLo
  let out : Fin 4 → List ℚ := fun j =>
    zip4With (fun a b c d =>
      if a = some (bm j) ∨ b = some (bm j) ∨ c = some (bm j) ∨ d = some (bm j)
      then 1 else 0) n0 n1 n2 n3
  ((((t.setCol c0 (out 0)).setCol c1 (out 1)).setCol c2 (out 2)).setCol c3 (out 3), p3.2)

/-- `_apply_noise_to_splice_junction` (lines 55–81).  `basis_mapping ∘
original_mapping` sends slot `j` to the position of base `j` in the drawn
`basis_order`, i.e. the inverse of the drawn permutation; the generator is then
reseeded with the caller's seed and the 60 groups of 4 columns (taken from
`data.columns` positions `4*i+j`) are processed in order. -/
def apply_noise_to_splice_junction (E : Env) (data : Table) (mu sigma : ℚ)
    (seed : ℕ) : Table :=
  let ns := data.names
  let sigmaPerm := spliceBasisOrder E seed
  let bm : Fin 4 → ℚ := fun j => (((sigmaPerm.symm j : Fin 4) : ℕ) : ℚ)
  ((List.range 60).foldl
    (fun s i =>
      spliceGroup mu sigma bm (ns.getD (4 * i) "") (ns.getD (4 * i + 1) "")
        (ns.getD (4 * i + 2) "") (ns.getD (4 * i + 3) "") s.1 s.2)
    (data, seedRNG E seed)).1

/-- Modelled from the spec: the schema metadata of the external `data` module
(`CensusIncome.integer_features` and friends) — feature-name lists consumed as
static metadata by the census noise transform and the one-hot reverser. -/
structure CensusSchema where
  integer_features : List String
  binary_features : List String
  ordinal_features : List String
  nominal_features : List String
  one_hot_features : List String

/-- Integer-feature loop body of `_apply_noise_to_census_income` (lines 87–93):
noise and round; `Age` is clamped below at 0, `HoursPerWeek` below at 0 then
above at 99, other integer features are not clamped. -/
def censusIntegerStep (mu sigma : ℚ) (s : Table × RNG) (f : String) : Table × RNG :=
  let p := mapNoise (fun j d => ((pyRound (j + d) : ℤ) : ℚ)) mu sigma (s.1.getCol f) s.2
  let t1 := s.1.setCol f p.1
  let t2 :=
    if f = "Age" then
      t1.setCol f ((t1.getCol f).map fun j => if j < 0 then 0 else j)
    else if f = "HoursPerWeek" then
      let ta := t1.setCol f ((t1.getCol f).map fun j => if j < 0 then 0 else j)
      ta.setCol f ((ta.getCol f).map fun j => if 99 < j then 99 else j)
    else t1
  (t2, p.2)

/-- Binary-feature loop body of `_apply_noise_to_census_income` (lines 94–97):
noise and round, clamp above at 1, clamp below at 0. -/
def censusBinaryStep (mu sigma : ℚ) (s : Table × RNG) (f : String) : Table × RNG :=
  let p := mapNoise (fun j d => ((pyRound (j + d) : ℤ) : ℚ)) mu sigma (s.1.getCol f) s.2
  let t1 := s.1.setCol f p.1
  let t2 := t1.setCol f ((t1.getCol f).map fun j => if 1 < j then 1 else j)
  let t3 := t2.setCol f ((t2.getCol f).map fun j => if j < 0 then 0 else j)
  (t3, p.2)

/-- The fixed per-block permutation of the census nominal loop (lines 103–104):
`np.random.seed(0)` followed by `np.random.choice(values, len(values),
replace=False)`; it depends only on the constant seed 0 and the block size —
the perturbation `seed` argument is not consulted. -/
def censusNominalOrder (E : Env) (seed : ℕ) (L : ℕ) : Equiv.Perm (Fin L) :=
  E.choiceList (E.streams 0) L

/-- Index of a clamped rational back inside `Fin L`: the source looks the value
up in the dict `inverse_new_mapping`, which succeeds because the clamped value
is an integer in `[0, L-1]`; `ratIdx` is exact on such values. -/
def ratIdx (q : ℚ) (L : ℕ) (h : 0 < L) : Fin L := ⟨q.num.toNat % L, Nat.mod_lt _ h⟩

/-- Nominal-feature loop body of `_apply_noise_to_census_income`
(lines 100–113): collect the block columns (labels starting with the feature
name, in column order), derive the constant-seed permutation, take the row-wise
argmax of the block, reseed with the perturbation seed, map the argmax through
`new_mapping ∘ original_mapping` (the inverse permutation), noise, round, clamp
to `[0, len(values)-1]`, and rebuild every block column from the mapped index.
An empty block would make `np.argmax` raise in the source; the step is the
identity in that (excluded) case. -/
def censusNominalStep (E : Env) (mu sigma : ℚ) (seed : ℕ) (s : Table × RNG)
    (f : String) : Table × RNG :=
  let t := s.1
  let values := t.names.filter (fun c => c.startsWith f)
  let L := values.length
  if hL : 0 < L then
    let sigmaPerm := censusNominalOrder E seed L
    let idxs : List ℚ := (List.range t.nrows).map fun i =>
      (((sigmaPerm.symm ⟨argmaxIdx (t.rowAt values i) % L, Nat.mod_lt _ hL⟩ : Fin L) : ℕ) : ℚ)
    let p := mapNoise (fun j d => ((pyRound (j + d) : ℤ) : ℚ)) mu sigma idxs (seedRNG E seed)
    let c1 := p.1.map fun j => if ((L : ℚ) - 1) < j then (L : ℚ) - 1 else j
    let c2 := c1.map fun j => if j < 0 then 0 else j
    let t2 := values.foldl
      (fun acc v => acc.setCol v (c2.map fun j =>
        if values.getD (sigmaPerm (ratIdx j L hL) : Fin L) "" = v then 1 else 0))
      t
    (t2, p.2)
  else s

/-- `_apply_noise_to_census_income` (lines 84–114): seed, then the integer,
binary, ordinal and nominal loops in order. -/
def apply_noise_to_census_income (E : Env) (S : CensusSchema) (data : Table)
    (mu sigma : ℚ) (seed : ℕ) : Table :=
  let s1 := S.integer_features.foldl (censusIntegerStep mu sigma) (data, seedRNG E seed)
  let s2 := S.binary_features.foldl (censusBinaryStep mu sigma) s1
  let s3 := S.ordinal_features.foldl
    (fun s f => add_noise_to_ordinal_feature f s.1 mu sigma s.2) s2
  let s4 := S.nominal_features.foldl (censusNominalStep E mu sigma seed) s3
  s4.1

/-- Modelled from the spec: `BreastCancer.name` of the external `data` module;
the string matches the dataset identity used in `compute_divergence`. -/
def breastCancerName : String := "breast-cancer"

/-- Modelled from the spec: `SpliceJunction.name` of the external `data` module. -/
def spliceJunctionName : String := "splice-junction"

/-- Modelled from the spec: `CensusIncome.name` of the external `data` module. -/
def censusIncomeName : String := "census-income"

/-- `apply_noise` (lines 11–28): dispatch on the dataset name, unknown names
raise `ValueError`. -/
def apply_noise (E : Env) (S : CensusSchema) (data : Table) (mu sigma : ℚ)
    (dataset_name : String) (seed : ℕ) : Except Err Table :=
  if dataset_name = breastCancerName then
    .ok (apply_noise_to_breast_cancer E data mu sigma seed)
  else if dataset_name = spliceJunctionName then
    .ok (apply_noise_to_splice_junction E data mu sigma seed)
  else if dataset_name = censusIncomeName then
    .ok (apply_noise_to_census_income E S data mu sigma seed)
  else .error .invalidDataset

/-! ## Label flipping (`flip_labels`, lines 117–146) -/

/-- Label-column selection of `flip_labels` (lines 126–133). -/
def labelColOf (dataset_name : String) : Option String :=
  if dataset_name = breastCancerName then some "diagnosis"
  else if dataset_name = spliceJunctionName then some "class"
  else if dataset_name = censusIncomeName then some "income"
  else none

/-- Row-wise `random_flip` over the label column: per row one Bernoulli coin
draw; on heads one further draw picking uniformly among the labels different
from the current one (`np.random.choice` on an empty candidate list — a table
with a single distinct label — raises `ValueError`). -/
def flipCol (E : Env) (p : ℚ) (possible : List ℚ) :
    List ℚ → RNG → Except Err (List ℚ × RNG)
  | [], r => .ok ([], r)
  | x :: xs, r =>
    let c := E.coin r.stream r.idx p
    let r1 : RNG := ⟨r.stream, r.idx + 1⟩
    if c then
      let opts := possible.filter fun lab => decide (lab ≠ x)
      if opts.length = 0 then .error .emptyChoice
      else
        let k := E.pick r1.stream r1.idx
        let r2 : RNG := ⟨r1.stream, r1.idx + 1⟩
        match flipCol E p possible xs r2 with
        | .error e => .error e
        | .ok q => .ok (opts.getD (k % opts.length) 0 :: q.1, q.2)
    else
      match flipCol E p possible xs r1 with
      | .error e => .error e
      | .ok q => .ok (x :: q.1, q.2)

/-- `flip_labels` (lines 117–146): select the label column by dataset name
(`ValueError` on an unknown name), seed, collect the distinct labels present,
and flip each row's label with probability `p` to a uniformly chosen different
label.  (On a table lacking its label column pandas would raise a `KeyError`;
the model reads an empty column there.) -/
def flip_labels (E : Env) (data : Table) (label_flip_p : ℚ)
    (dataset_name : String) (seed : ℕ) : Except Err Table :=
  match labelColOf dataset_name with
  | none => .error .invalidDataset
  | some label_name =>
    let possible := (data.getCol label_name).dedup
    match flipCol E label_flip_p possible (data.getCol label_name) (seedRNG E seed) with
    | .error e => .error e
    | .ok q => .ok (data.setCol label_name q.1)

/-! ## Format reversers (lines 149–170) -/

/-- Loop of `reverse_one_hot` (lines 151–156): per feature, collect the block
columns (labels of the original `data` starting with the feature name), drop
them from the accumulator, and append a column holding the row-wise argmax of
the block.  An empty block on a table with rows makes `np.argmax` raise. -/
def reverseOneHotAux (data : Table) : List String → Table → Except Err Table
  | [], acc => .ok acc
  | f :: fs, acc =>
    let columns := data.names.filter fun c => c.startsWith f
    if columns.isEmpty && decide (data.nrows ≠ 0) then .error .emptyBlock
    else
      let dropped := acc.dropCols columns
      let newcol := (List.range data.nrows).map fun i =>
        ((argmaxIdx (data.rowAt columns i) : ℕ) : ℚ)
      reverseOneHotAux data fs (dropped.setCol f newcol)

/-- `reverse_one_hot` (lines 149–157). -/
def reverse_one_hot (data : Table) (one_hot_features : List String) :
    Except Err Table :=
  reverseOneHotAux data one_hot_features data

/-- Pointwise weighted combination of four columns of plain rationals. -/
def zip4WithQ (f : ℚ → ℚ → ℚ → ℚ → ℚ) :
    List ℚ → List ℚ → List ℚ → List ℚ → List ℚ
  | a :: as, b :: bs, c :: cs, d :: ds => f a b c d :: zip4WithQ f as bs cs ds
  | _, _, _, _ => []

/-- `reverse_multi_hot` (lines 160–170): for each of the 60 four-column groups
(positional access `iloc[:, j + i*4]`, hence an `IndexError` on a table with
fewer than 240 columns) build the weighted sum `1*x0 + 3*x1 + 5*x2 + 10*x3`,
then carry the `class` column through (`KeyError` when it is absent). -/
def reverse_multi_hot (data : Table) : Except Err Table :=
  if data.length < 240 then .error .shapeError
  else
    let out : Table := (List.range 60).map fun i =>
      (toString i,
        zip4WithQ (fun a b c d => a * 1 + b * 3 + c * 5 + d * 10)
          (data.getD (4 * i) ("", [])).2 (data.getD (4 * i + 1) ("", [])).2
          (data.getD (4 * i + 2) ("", [])).2 (data.getD (4 * i + 3) ("", [])).2)
    match data.find? "class" with
    | none => .error .classKeyError
    | some cls => .ok (out ++ [("class", cls)])

/-! ## Divergence estimator (lines 173–249) -/

/-- A float-like value: a rational extended with NaN and the infinities.  The
closed-form Gaussian KL expression of `_compute_kl_div` (lines 218–239) is
float linear algebra and is abstracted by an oracle producing an `FVal`. -/
inductive FVal
  | nan
  | posInf
  | negInf
  | val (q : ℚ)
  deriving DecidableEq, Repr

/-- `math.isnan`. -/
def FVal.isNanB : FVal → Bool
  | .nan => true | _ => false

/-- `abs(kl) > b` (true for the infinities, false for NaN, as for floats). -/
def FVal.absGT (v : FVal) (b : ℚ) : Bool :=
  match v with
  | .nan => false | .posInf => true | .negInf => true | .val q => decide (b < |q|)

/-- `kl < 0` (false for NaN and `+inf`, true for `-inf`). -/
def FVal.ltZero : FVal → Bool
  | .nan => false | .posInf => false | .negInf => true | .val q => decide (q < 0)

/-- The rational carried by a finite `FVal` (after the guards of
`_compute_kl_div` the value is always finite). -/
def FVal.toRat : FVal → ℚ
  | .val q => q | _ => 0

/-- Guard sequence of `_compute_kl_div` (lines 241–245): first a NaN or a value
of magnitude above 1e7 is replaced by the sentinel 10000.0, then a negative
value is clamped to 0. -/
def klGuard (kl : FVal) : ℚ :=
  let k1 := if kl.isNanB || kl.absGT 10000000 then FVal.val 10000 else kl
  let k2 := if k1.ltZero then FVal.val 0 else k1
  k2.toRat

/-- Degenerate-feature pruning of `_compute_kl_div` (lines 212–215): every
feature whose column in `data2` holds a single distinct value is dropped from
both tables.  The loop iterates over the original column list of `data2`; with
distinct column labels each test reads the same column the source reads. -/
def dropConstantCols (d1 d2 : Table) : Table × Table :=
  d2.names.foldl
    (fun s feat =>
      if (d2.getCol feat).dedup.length = 1 then
        (s.1.dropCols [feat], s.2.dropCols [feat])
      else s)
    (d1, d2)

/-- `_compute_kl_div` (lines 211–249): prune degenerate features, obtain the
closed-form Gaussian KL value (oracle `raw`), apply the stability guards. -/
def compute_kl_div (raw : Table → Table → FVal) (data1 data2 : Table) : ℚ :=
  let p := dropConstantCols data1 data2
  klGuard (raw p.1 p.2)

/-- Row filter `data[data[label_col] == label]` on a column-major table. -/
def applyMask : List Bool → List ℚ → List ℚ
  | b :: bs, x :: xs => if b then x :: applyMask bs xs else applyMask bs xs
  | _, _ => []

/-- Keep the rows whose `label` column equals `v`. -/
def filterRows (t : Table) (label : String) (v : ℚ) : Table :=
  let mask := (t.getCol label).map fun x => decide (x = v)
  t.map fun p => (p.1, applyMask mask p.2)

/-- `set(a) == set(b)`. -/
def listSetEqB (a b : List ℚ) : Bool :=
  (a.all fun x => decide (x ∈ b)) && (b.all fun x => decide (x ∈ a))

/-- Lines 190–208 of `compute_divergence`, after the dataset-specific
reversal: look the label column up in the reversed perturbed table (`KeyError`
→ `ValueError('different labels')`); assert equal label-value sets; then pool
the per-class guarded KL values weighted by class size and divide by the total
row count. -/
def divergenceTail (raw : Table → Table → FVal) (od pdt : Table)
    (label_col : String) : Except Err ℚ :=
  let labels_original := od.getCol label_col
  match pdt.find? label_col with
  | none => .error .labelMismatch
  | some labels_perturbed =>
    if !listSetEqB labels_original labels_perturbed then .error .assertFailed
    else
      let labels := labels_original.dedup
      let score := labels.foldl
        (fun acc label =>
          let f1 := filterRows od label_col label
          let f2 := filterRows pdt label_col label
          let d1 := f1.dropCols [label_col]
          let d2 := f2.dropCols [label_col]
          acc + compute_kl_div raw d1 d2 * (f1.nrows : ℚ))
        0
      .ok (score / (od.nrows : ℚ))

/-- `compute_divergence` (lines 173–208): infer the dataset from the label
column present in the original table (`class` before `income` before
`diagnosis`, otherwise `ValueError`); apply the matching reversal to both
tables (original first); then the label checks and class-conditional pooling
of `divergenceTail`. -/
def compute_divergence (raw : Table → Table → FVal)
    (one_hot_features : List String) (original_data perturbed_data : Table) :
    Except Err ℚ :=
  let sel : Except Err (Table × Table × String) :=
    if original_data.hasCol "class" then
      match reverse_multi_hot original_data, reverse_multi_hot perturbed_data with
      | .error e, _ => .error e
      | .ok _, .error e => .error e
      | .ok o, .ok p => .ok (o, p, "class")
    else if original_data.hasCol "income" then
      match reverse_one_hot original_data one_hot_features,
            reverse_one_hot perturbed_data one_hot_features with
      | .error e, _ => .error e
      | .ok _, .error e => .error e
      | .ok o, .ok p => .ok (o, p, "income")
    else if original_data.hasCol "diagnosis" then
      .ok (original_data, perturbed_data, "diagnosis")
    else .error .invalidDataset
  match sel with
  | .error e => .error e
  | .ok (od, pdt, label_col) => divergenceTail raw od pdt label_col

/-! ## Robustness aggregator (lines 252–274) -/

/-- The four fixed model identifiers of `compute_robustness`. -/
def robustnessModels : List String := ["uneducated", "kins", "kill", "kbann"]

/-- `compute_robustness` (lines 252–274).  The external CSV reads are
abstracted by oracles: `pi1 m` is the mean metric of the baseline file
`drop/<dataset>/<m>/1.csv`, `div i` the first-column mean of
`<pert>/<dataset>/divergences/<i>.csv`, and `pi2 m i` the mean metric of
`<pert>/<dataset>/<m>/<i>.csv`, for the dataset and metric of the call.
`n` is 10 for the noise and label-flip families and 20 otherwise; the iterated
indices are `range(n)` for noise and `range(1, n)` for every other family, and
file `i+1` is read at index `i`.  The result models the insertion-ordered
dict; each relative entry divides the absolute entries stored in the dict. -/
def compute_robustness (pi1 : String → ℚ) (div : ℕ → ℚ) (pi2 : String → ℕ → ℚ)
    (perturbation : String) : List (String × ℚ) :=
  let n : ℕ := if perturbation = "noise" ∨ perturbation = "label_flip" then 10 else 20
  let idxs : List ℕ := if perturbation = "noise" then List.range n else (List.range n).drop 1
  let absEntry : String → ℚ := fun m =>
    ((idxs.map fun i => div (i + 1) / (pi1 m / pi2 m (i + 1))).sum) / (n : ℚ)
  let absList := robustnessModels.map fun m => (m ++ " absolute", absEntry m)
  let relList := robustnessModels.map fun m =>
    (m ++ " relative", absEntry m / absEntry "uneducated")
  absList ++ relList

/-- Stated from the specification text of claim C9, not from the source: the
absolute robustness score the claim describes — the arithmetic mean of
`divergence_i / (baseline / quality_i)` over the family's full iteration count
(10 iterations for the noise and label-flip families, 20 otherwise). -/
def specAbsoluteRobustness (pi1 : String → ℚ) (div : ℕ → ℚ)
    (pi2 : String → ℕ → ℚ) (perturbation : String) (m : String) : ℚ :=
  let n : ℕ := if perturbation = "noise" ∨ perturbation = "label_flip" then 10 else 20
  (((List.range n).map fun i => div (i + 1) / (pi1 m / pi2 m (i + 1))).sum) / (n : ℚ)

/-! ## Concrete sample inputs used by witnesses and counterexamples -/

/-- A concrete random environment: every standard-normal draw is 1, the
constant-seed permutations are the identity, the Bernoulli coin is heads
exactly on the first draw, uniform picks take index 0. -/
def envW : Env where
  streams := fun _ _ => 1
  choice4 := fun _ => Equiv.refl _
  choiceList := fun _ _ => Equiv.refl _
  coin := fun _ i _ => decide (i = 0)
  pick := fun _ _ => 0

/-- A concrete random environment whose draws are all 0. -/
def envZ : Env where
  streams := fun _ _ => 0
  choice4 := fun _ => Equiv.refl _
  choiceList := fun _ _ => Equiv.refl _
  coin := fun _ _ _ => false
  pick := fun _ _ => 0

/-- An empty census schema (the census transform loops are then no-ops). -/
def schemaW : CensusSchema where
  integer_features := []
  binary_features := []
  ordinal_features := []
  nominal_features := []
  one_hot_features := []

/-- A census schema with one nominal feature whose block has two columns. -/
def schemaN : CensusSchema where
  integer_features := []
  binary_features := []
  ordinal_features := ["ord"]
  nominal_features := ["Nom"]
  one_hot_features := ["Nom"]

/-- A two-row breast-cancer-shaped table. -/
def tableBC : Table := [("diagnosis", [0, 1])]

/-- A two-row census-shaped table: one ordinal feature, one two-column
nominal block, a label column. -/
def tableCI : Table :=
  [("ord", [0, 2]), ("Nom_a", [1, 0]), ("Nom_b", [0, 1]), ("income", [0, 1])]

/-- A 240-column splice-junction-shaped table with one row, block `i` holding
its 1 in slot 0. -/
def tableSJ : Table :=
  (List.range 240).map fun k => (toString k, [if k % 4 = 0 then (1 : ℚ) else 0])

/-- `tableSJ` with the `class` label column appended. -/
def tableSJC : Table := tableSJ ++ [("class", [0])]

/-- A KL oracle returning the constant finite value 1. -/
def rawOne : Table → Table → FVal := fun _ _ => FVal.val 1

/-- `Uniform` is a bounded universal over the column list, hence decidable. -/
instance (t : Table) (n : ℕ) : Decidable (t.Uniform n) :=
  inferInstanceAs (Decidable (∀ p ∈ t, p.2.length = n))

/-- Unique existence over a finite type is decidable (the definition of
`ExistsUnique` is not unfolded by instance search, so spell it out). -/
instance {α : Type _} [Fintype α] [DecidableEq α] (p : α → Prop)
    [DecidablePred p] : Decidable (∃! x, p x) :=
  inferInstanceAs (Decidable (∃ x, p x ∧ ∀ y, p y → y = x))


/-! ## Basic lemmas about the table model -/

theorem Table.find?_setCol_self (t : Table) (n : String) (v : List ℚ) :
    (t.setCol n v).find? n = some v := by
  induction t with
  | nil => simp [Table.setCol, Table.find?]
  | cons p t ih =>
    rcases p with ⟨m, c⟩
    by_cases h : m = n
    · simp [Table.setCol, h, Table.find?]
    · simp [Table.setCol, h, Table.find?, ih]

theorem Table.find?_setCol_ne (t : Table) (n m : String) (v : List ℚ)
    (h : n ≠ m) : (t.setCol n v).find? m = t.find? m := by
  induction t with
  | nil => simp [Table.setCol, Table.find?, h]
  | cons p t ih =>
    rcases p with ⟨k, c⟩
    by_cases hk : k = n
    · subst hk; simp [Table.setCol, Table.find?, h]
    · simp [Table.setCol, hk, Table.find?, ih]

theorem Table.getCol_setCol_self (t : Table) (n : String) (v : List ℚ) :
    (t.setCol n v).getCol n = v := by
  simp [Table.getCol, Table.find?_setCol_self]

theorem Table.getCol_setCol_ne (t : Table) (n m : String) (v : List ℚ)
    (h : n ≠ m) : (t.setCol n v).getCol m = t.getCol m := by
  simp [Table.getCol, Table.find?_setCol_ne t n m v h]

theorem Table.hasCol_setCol_ne (t : Table) (n m : String) (v : List ℚ)
    (h : n ≠ m) : (t.setCol n v).hasCol m = t.hasCol m := by
  simp [Table.hasCol, Table.find?_setCol_ne t n m v h]

theorem Table.names_setCol (t : Table) (n : String) (v : List ℚ)
    (h : t.hasCol n = true) : (t.setCol n v).names = t.names := by
  induction t with
  | nil => simp [Table.hasCol, Table.find?] at h
  | cons p t ih =>
    rcases p with ⟨m, c⟩
    by_cases hm : m = n
    · simp [Table.setCol, hm, Table.names]
    · simp [Table.hasCol, Table.find?, hm] at h
      simp [Table.setCol, hm, Table.names] at ih ⊢
      exact ih h

theorem Table.hasCol_of_mem_names (t : Table) (n : String)
    (h : n ∈ t.names) : t.hasCol n = true := by
  induction t with
  | nil => simp [Table.names] at h
  | cons p t ih =>
    rcases p with ⟨m, c⟩
    by_cases hm : m = n
    · simp [Table.hasCol, Table.find?, hm]
    · simp [Table.names, hm] at h
      rcases h with h | h
      · exact absurd h.symm hm
      · simpa [Table.hasCol, Table.find?, hm] using ih (by simpa [Table.names] using h)

theorem Table.find?_mem (t : Table) (n : String) (c : List ℚ)
    (h : t.find? n = some c) : (n, c) ∈ t := by
  induction t with
  | nil => simp [Table.find?] at h
  | cons p t ih =>
    rcases p with ⟨m, d⟩
    by_cases hm : m = n
    · subst hm
      simp [Table.find?] at h
      simp [h]
    · simp [Table.find?, hm] at h
      simp [ih h]

theorem Table.Uniform.setCol {t : Table} {n : ℕ} (hu : t.Uniform n)
    (c : String) (v : List ℚ) (hv : v.length = n) : (t.setCol c v).Uniform n := by
  induction t with
  | nil => intro p hp; simp [Table.setCol] at hp; simp [hp, hv]
  | cons q t ih =>
    rcases q with ⟨m, d⟩
    by_cases hm : m = c
    · intro p hp
      simp [Table.setCol, hm] at hp
      rcases hp with hp | hp
      · simp [hp, hv]
      · exact hu p (by simp [hp])
    · intro p hp
      simp [Table.setCol, hm] at hp
      rcases hp with hp | hp
      · exact hu p (by simp [hp])
      · exact ih (fun q hq => hu q (by simp [hq])) p hp

theorem Table.getCol_length {t : Table} {n : ℕ} (hu : t.Uniform n)
    (c : String) (h : t.hasCol c = true) : (t.getCol c).length = n := by
  rcases ho : t.find? c with _ | col
  · simp [Table.hasCol, ho] at h
  · have := hu (c, col) (Table.find?_mem t c col ho)
    simpa [Table.getCol, ho] using this

theorem Table.nrows_eq {t : Table} {n : ℕ} (hu : t.Uniform n) (h : t ≠ []) :
    t.nrows = n := by
  cases t with
  | nil => exact absurd rfl h
  | cons p t => exact hu p (by simp)

/-! ## Lemmas about the guard sequence of the divergence estimator -/

theorem klGuard_eq (v : FVal) :
    klGuard v = if v.isNanB || v.absGT 10000000 then 10000
      else if v.ltZero then 0 else v.toRat := by
  have h0 : ¬ ((10000 : ℚ) < 0) := by norm_num
  cases v with
  | nan => simp [klGuard, FVal.isNanB, FVal.absGT, FVal.ltZero, FVal.toRat, h0]
  | posInf => simp [klGuard, FVal.isNanB, FVal.absGT, FVal.ltZero, FVal.toRat, h0]
  | negInf => simp [klGuard, FVal.isNanB, FVal.absGT, FVal.ltZero, FVal.toRat, h0]
  | val q =>
    by_cases h1 : (10000000 : ℚ) < |q|
    · simp [klGuard, FVal.isNanB, FVal.absGT, FVal.ltZero, FVal.toRat, h1, h0]
    · by_cases h2 : q < 0
      · simp [klGuard, FVal.isNanB, FVal.absGT, FVal.ltZero, FVal.toRat, h1, h2]
      · simp [klGuard, FVal.isNanB, FVal.absGT, FVal.ltZero, FVal.toRat, h1, h2]

theorem klGuard_nonneg (v : FVal) : 0 ≤ klGuard v := by
  rw [klGuard_eq]
  cases v with
  | nan => norm_num [FVal.isNanB]
  | posInf => norm_num [FVal.absGT]
  | negInf => norm_num [FVal.absGT]
  | val q =>
    by_cases h1 : (10000000 : ℚ) < |q|
    · norm_num [FVal.isNanB, FVal.absGT, h1]
    · by_cases h2 : q < 0
      · norm_num [FVal.isNanB, FVal.absGT, FVal.ltZero, FVal.toRat, h1, h2]
      · norm_num [FVal.isNanB, FVal.absGT, FVal.ltZero, FVal.toRat, h1, h2]
        exact le_of_not_lt h2

theorem compute_kl_div_nonneg (raw : Table → Table → FVal) (d1 d2 : Table) :
    0 ≤ compute_kl_div raw d1 d2 := klGuard_nonneg _

/-! ## Claim theorems -/

/-- C2: `apply_noise` is deterministic — all randomness is the seeded
generator, modelled by `Env`; for a fixed environment, two invocations on
equal inputs (table, mu, sigma, dataset name, seed) return equal tables. -/
theorem C2_apply_noise_deterministic (E : Env) (S : CensusSchema)
    (d1 d2 : Table) (mu1 mu2 sg1 sg2 : ℚ) (n1 n2 : String) (s1 s2 : ℕ)
    (hd : d1 = d2) (hmu : mu1 = mu2) (hsg : sg1 = sg2) (hn : n1 = n2)
    (hs : s1 = s2) :
    apply_noise E S d1 mu1 sg1 n1 s1 = apply_noise E S d2 mu2 sg2 n2 s2 := by
  subst hd hmu hsg hn hs; rfl

/-- Witness for C2 at a concrete breast-cancer invocation. -/
theorem C2_witness :
    apply_noise envW schemaW tableBC 0 1 breastCancerName 3 =
      apply_noise envW schemaW tableBC 0 1 breastCancerName 3 :=
  C2_apply_noise_deterministic envW schemaW tableBC tableBC 0 0 1 1
    breastCancerName breastCancerName 3 3 rfl rfl rfl rfl rfl

/-- C6: the symbol/column permutations used inside `apply_noise` for the
splice-junction and census nominal blocks are drawn after reseeding with the
constant 0, hence they are identical across all perturbation seeds. -/
theorem C6_constant_seed_permutation (E : Env) (s1 s2 : ℕ) :
    spliceBasisOrder E s1 = spliceBasisOrder E s2 ∧
    ∀ L : ℕ, censusNominalOrder E s1 L = censusNominalOrder E s2 L :=
  ⟨rfl, fun _ => rfl⟩

/-- C5: the per-class KL routine returns the sentinel 10000 precisely on a NaN
or absurd-magnitude closed-form value (the infinities included), returns 0
precisely on a negative in-range value, and the unmodified value otherwise —
the NaN/magnitude guard fires before the negativity clamp. -/
theorem C5_kl_guard_characterisation (raw : Table → Table → FVal)
    (d1 d2 : Table) (v : FVal)
    (h : raw (dropConstantCols d1 d2).1 (dropConstantCols d1 d2).2 = v) :
    compute_kl_div raw d1 d2 =
      if v.isNanB || v.absGT 10000000 then 10000
      else if v.ltZero then 0 else v.toRat := by
  simp only [compute_kl_div]
  rw [h, klGuard_eq]

/-- Witness for C5: a negative in-range oracle value is clamped to 0. -/
theorem C5_witness :
    compute_kl_div (fun _ _ => FVal.val (-5)) [] [] = 0 := by
  have h := C5_kl_guard_characterisation (fun _ _ => FVal.val (-5)) [] []
    (FVal.val (-5)) rfl
  simpa [FVal.isNanB, FVal.absGT, FVal.ltZero, FVal.toRat] using h

/-- C10: for the breast-cancer dataset `apply_noise` perturbs every column,
the label column `diagnosis` included: at this concrete input the output label
column differs from the input one while staying inside the label column's
observed bounds. -/
theorem C10_label_column_noised :
    apply_noise envW schemaW tableBC 0 1 breastCancerName 0 =
      .ok [("diagnosis", [1, 1])] ∧
    Table.getCol [("diagnosis", [1, 1])] "diagnosis" ≠ tableBC.getCol "diagnosis" ∧
    colMin (tableBC.getCol "diagnosis") = some 0 ∧
    colMax (tableBC.getCol "diagnosis") = some 1 ∧
    (Table.getCol [("diagnosis", [1, 1])] "diagnosis").all
      (fun v => decide (0 ≤ v) && decide (v ≤ 1)) = true := by
  refine ⟨?_, by decide, by decide, by decide, by decide⟩
  exact of_decide_eq_true (by with_unfolding_all rfl)

/-- C9 (amended): each model's absolute entry of `compute_robustness` is the
sum over the family's iterated file indices — files 1..10 for the noise
family, files 2..n for every other family — divided by `n` (10 for noise and
label-flip, 20 otherwise); for non-noise families this sums only `n - 1`
values, so it is not the arithmetic mean over the family's full iteration
count.  Each relative entry is the model's absolute entry divided by the
`uneducated` absolute entry. -/
theorem C9_robustness_entries (pi1 : String → ℚ) (div : ℕ → ℚ)
    (pi2 : String → ℕ → ℚ) (pert m : String) (n : ℕ) (idxs : List ℕ)
    (hm : m ∈ robustnessModels)
    (hn : n = if pert = "noise" ∨ pert = "label_flip" then 10 else 20)
    (hidx : idxs = if pert = "noise" then List.range n else (List.range n).drop 1) :
    (compute_robustness pi1 div pi2 pert).lookup (m ++ " absolute") =
      some (((idxs.map fun i => div (i + 1) / (pi1 m / pi2 m (i + 1))).sum) / (n : ℚ)) ∧
    (compute_robustness pi1 div pi2 pert).lookup (m ++ " relative") =
      some ((((idxs.map fun i => div (i + 1) / (pi1 m / pi2 m (i + 1))).sum) / (n : ℚ)) /
        (((idxs.map fun i => div (i + 1) / (pi1 "uneducated" / pi2 "uneducated" (i + 1))).sum) /
          (n : ℚ))) := by
  subst hn hidx
  fin_cases hm <;> exact ⟨rfl, rfl⟩

/-- Counterexample to C9 as stated: for the label-flip family with all file
oracles constant 1 the code's absolute score is 9/10 (it sums the 9 read
iterations and divides by 10), while the mean over the family's full iteration
count described by the claim is 1. -/
theorem C9_counterexample :
    (compute_robustness (fun _ => 1) (fun _ => 1) (fun _ _ => 1) "label_flip").lookup
        "kins absolute" = some (9 / 10) ∧
    specAbsoluteRobustness (fun _ => 1) (fun _ => 1) (fun _ _ => 1) "label_flip" "kins" = 1 ∧
    (9 / 10 : ℚ) ≠ 1 := by
  refine ⟨?_, ?_, by norm_num⟩
  · exact of_decide_eq_true (by with_unfolding_all rfl)
  · exact of_decide_eq_true (by with_unfolding_all rfl)

/-- Witness for the amended C9 at the noise family, model `kins`. -/
theorem C9_witness :
    (compute_robustness (fun _ => 1) (fun _ => 1) (fun _ _ => 1) "noise").lookup
        ("kins" ++ " absolute") =
      some ((((List.range 10).map fun i => (1 : ℚ) / ((1 : ℚ) / (1 : ℚ))).sum) /
        ((10 : ℕ) : ℚ)) :=
  (C9_robustness_entries (fun _ => 1) (fun _ => 1) (fun _ _ => 1) "noise" "kins"
    10 (List.range 10) (by decide) (by decide) (by decide)).1

/-! ## C3: non-negativity of the divergence score -/

theorem foldl_score_nonneg (raw : Table → Table → FVal) (od pdt : Table)
    (lbl : String) (labels : List ℚ) :
    ∀ init : ℚ, 0 ≤ init →
      0 ≤ labels.foldl
        (fun acc label =>
          acc + compute_kl_div raw ((filterRows od lbl label).dropCols [lbl])
              ((filterRows pdt lbl label).dropCols [lbl]) *
            (((filterRows od lbl label).nrows : ℕ) : ℚ)) init := by
  induction labels with
  | nil => intro init h; simpa using h
  | cons x xs ih =>
    intro init h
    simp only [List.foldl_cons]
    refine ih _ (add_nonneg h (mul_nonneg (compute_kl_div_nonneg _ _ _) ?_))
    positivity

theorem divergenceTail_ok_nonneg (raw : Table → Table → FVal)
    (od pdt : Table) (lbl : String) (q : ℚ)
    (h : divergenceTail raw od pdt lbl = .ok q) : 0 ≤ q := by
  simp only [divergenceTail] at h
  split at h
  · exact absurd h (by simp)
  · split at h
    · exact absurd h (by simp)
    · rw [Except.ok.injEq] at h
      subst h
      exact div_nonneg (foldl_score_nonneg raw od pdt lbl _ 0 le_rfl)
        (Nat.cast_nonneg _)

/-- C3: whenever `compute_divergence` returns a value it is non-negative (each
per-class guarded KL value is non-negative, class sizes and the total row
count are non-negative).  On inputs satisfying the claim's hypotheses but with
malformed column layout the function may fail instead of returning; any
returned value is covered. -/
theorem C3_divergence_nonneg (raw : Table → Table → FVal)
    (one_hot_features : List String) (o p : Table) (q : ℚ)
    (h : compute_divergence raw one_hot_features o p = .ok q) : 0 ≤ q := by
  simp only [compute_divergence] at h
  split at h
  · exact absurd h (by simp)
  · exact divergenceTail_ok_nonneg _ _ _ _ _ h

/-- Witness for C3: a concrete breast-cancer-path invocation returning 1. -/
theorem C3_witness :
    compute_divergence rawOne [] tableBC tableBC = .ok 1 ∧ (0 : ℚ) ≤ 1 :=
  ⟨of_decide_eq_true (by with_unfolding_all rfl),
    C3_divergence_nonneg rawOne [] tableBC tableBC 1
      (of_decide_eq_true (by with_unfolding_all rfl))⟩

/-! ## C8: label flipping and the set of label values -/

theorem List.getD_of_lt {α : Type _} (l : List α) (d : α) (i : ℕ)
    (h : i < l.length) : l.getD i d = l.get ⟨i, h⟩ := by
  simp [List.getD_eq_getElem?_getD, List.getElem?_eq_getElem h]

theorem List.getD_mem_of_lt {α : Type} (l : List α) (i : ℕ) (d : α)
    (h : i < l.length) : l.getD i d ∈ l := by
  rw [List.getD_of_lt _ d i h]
  exact List.get_mem l i h

theorem flipCol_mem (E : Env) (p : ℚ) (possible : List ℚ) :
    ∀ (l : List ℚ) (r : RNG) (res : List ℚ × RNG),
      flipCol E p possible l r = .ok res → ∀ v ∈ res.1, v ∈ possible ∨ v ∈ l := by
  intro l
  induction l with
  | nil =>
    intro r res h v hv
    simp only [flipCol] at h
    rw [Except.ok.injEq] at h
    subst h
    simp at hv
  | cons x xs ih =>
    intro r res h v hv
    simp only [flipCol] at h
    split at h
    · split at h
      · exact absurd h (by simp)
      · rename_i hc hlen
        split at h
        · exact absurd h (by simp)
        · rename_i q hq
          rw [Except.ok.injEq] at h
          subst h
          simp only [List.mem_cons] at hv
          rcases hv with hv | hv
          · subst hv
            left
            have hmem : (possible.filter fun lab => decide (lab ≠ x)).getD
                (E.pick r.stream (r.idx + 1) %
                  (possible.filter fun lab => decide (lab ≠ x)).length) 0 ∈
                possible.filter fun lab => decide (lab ≠ x) :=
              List.getD_mem_of_lt _ _ _ (Nat.mod_lt _ (Nat.pos_of_ne_zero hlen))
            exact (List.mem_filter.mp hmem).1
          · rcases ih _ _ hq v hv with hp | hx
            · exact Or.inl hp
            · exact Or.inr (List.mem_cons_of_mem _ hx)
    · split at h
      · exact absurd h (by simp)
      · rename_i q hq
        rw [Except.ok.injEq] at h
        subst h
        simp only [List.mem_cons] at hv
        rcases hv with hv | hv
        · exact Or.inr (by simp [hv])
        · rcases ih _ _ hq v hv with hp | hx
          · exact Or.inl hp
          · exact Or.inr (List.mem_cons_of_mem _ hx)

/-- C8 (amended): `flip_labels` never introduces a label value that was not
already present — every value of the output label column occurs in the input
label column (a flipped row resamples among the labels present), so the set of
label values after flipping is a subset of the set before.  Equality can fail:
every occurrence of a label can flip away (see the counterexample). -/
theorem C8_flip_labels_subset (E : Env) (data : Table) (p : ℚ)
    (dataset_name : String) (seed : ℕ) (lbl : String) (out : Table)
    (hl : labelColOf dataset_name = some lbl)
    (h : flip_labels E data p dataset_name seed = .ok out) :
    ∀ v ∈ out.getCol lbl, v ∈ data.getCol lbl := by
  intro v hv
  simp only [flip_labels, hl] at h
  split at h
  · exact absurd h (by simp)
  · rename_i q hq
    rw [Except.ok.injEq] at h
    subst h
    rw [Table.getCol_setCol_self] at hv
    rcases flipCol_mem E p _ _ _ _ hq v hv with hp | hx
    · exact (List.mem_dedup).mp hp
    · exact hx

/-- Counterexample to C8 as stated: a concrete run in which the first row's
label 0 flips to 1 and the second row keeps its label 1, so the set of label
values shrinks from {0, 1} to {1}. -/
theorem C8_counterexample :
    flip_labels envW tableBC (1 / 2) breastCancerName 0 =
      .ok [("diagnosis", [1, 1])] ∧
    listSetEqB (Table.getCol [("diagnosis", [1, 1])] "diagnosis")
      (tableBC.getCol "diagnosis") = false :=
  ⟨of_decide_eq_true (by with_unfolding_all rfl), by decide⟩

/-- Witness for the amended C8 at the same concrete run. -/
theorem C8_witness : (1 : ℚ) ∈ tableBC.getCol "diagnosis" :=
  C8_flip_labels_subset envW tableBC (1 / 2) breastCancerName 0 "diagnosis"
    [("diagnosis", [1, 1])] (by decide)
    (of_decide_eq_true (by with_unfolding_all rfl)) 1 (by decide)

/-! ## C7: error behaviour of `compute_divergence` -/

theorem Table.hasCol_dropCols (t : Table) (cs : List String) (n : String)
    (hn : ¬ n ∈ cs) : (t.dropCols cs).hasCol n = t.hasCol n := by
  induction t with
  | nil => rfl
  | cons p t ih =>
    rcases p with ⟨m, c⟩
    by_cases hm : m ∈ cs
    · have hmn : m ≠ n := fun he => hn (he ▸ hm)
      simp only [Table.dropCols, List.filter_cons] at ih ⊢
      rw [show (!decide (m ∈ cs)) = false by simp [hm]]
      simp only [Bool.false_eq_true, if_false]
      rw [ih]
      simp [Table.hasCol, Table.find?, hmn]
    · simp only [Table.dropCols, List.filter_cons] at ih ⊢
      rw [show (!decide (m ∈ cs)) = true by simp [hm]]
      simp only [if_true]
      by_cases hmn : m = n
      · subst hmn
        simp [Table.hasCol, Table.find?]
      · simp only [Table.hasCol, Table.find?, hmn, if_false] at ih ⊢
        exact ih

theorem reverse_multi_hot_error (t : Table) (e : Err)
    (h : reverse_multi_hot t = .error e) :
    e = .shapeError ∨ e = .classKeyError := by
  simp only [reverse_multi_hot] at h
  split at h
  · rw [Except.error.injEq] at h
    exact Or.inl h.symm
  · split at h
    · rw [Except.error.injEq] at h
      exact Or.inr h.symm
    · exact absurd h (by simp)

theorem reverseOneHotAux_error (data : Table) :
    ∀ (fs : List String) (acc : Table) (e : Err),
      reverseOneHotAux data fs acc = .error e → e = .emptyBlock := by
  intro fs
  induction fs with
  | nil => intro acc e h; exact absurd h (by simp [reverseOneHotAux])
  | cons f fs ih =>
    intro acc e h
    simp only [reverseOneHotAux] at h
    split at h
    · rw [Except.error.injEq] at h
      exact h.symm
    · exact ih _ _ h

theorem reverseOneHotAux_ok (data : Table) :
    ∀ (fs : List String) (acc : Table),
      (∀ f ∈ fs, (data.names.filter fun c => c.startsWith f).isEmpty = false) →
      ∃ res, reverseOneHotAux data fs acc = .ok res := by
  intro fs
  induction fs with
  | nil => intro acc _; exact ⟨acc, rfl⟩
  | cons f fs ih =>
    intro acc h
    simp only [reverseOneHotAux]
    rw [if_neg]
    · exact ih _ (fun g hg => h g (List.mem_cons_of_mem _ hg))
    · simp [h f (by simp)]

theorem divergenceTail_ne_invalid (raw : Table → Table → FVal)
    (od pdt : Table) (lbl : String) :
    divergenceTail raw od pdt lbl ≠ .error .invalidDataset := by
  simp only [divergenceTail]
  split
  · simp
  · split <;> simp

theorem divergenceTail_labelMismatch_iff (raw : Table → Table → FVal)
    (od pdt : Table) (lbl : String) :
    divergenceTail raw od pdt lbl = .error .labelMismatch ↔
      pdt.hasCol lbl = false := by
  rcases hf : pdt.find? lbl with _ | c
  · simp [divergenceTail, hf, Table.hasCol]
  · simp only [divergenceTail, hf]
    rw [Table.hasCol, hf]
    constructor
    · intro h
      split at h <;> simp at h
    · intro h
      simp at h

theorem divergenceTail_assert_iff (raw : Table → Table → FVal)
    (od pdt : Table) (lbl : String) (hp : pdt.hasCol lbl = true) :
    divergenceTail raw od pdt lbl = .error .assertFailed ↔
      listSetEqB (od.getCol lbl) (pdt.getCol lbl) = false := by
  rcases hf : pdt.find? lbl with _ | c
  · rw [Table.hasCol, hf] at hp
    simp at hp
  · have hpc : pdt.getCol lbl = c := by simp [Table.getCol, hf]
    rw [hpc]
    simp only [divergenceTail, hf]
    by_cases hset : listSetEqB (od.getCol lbl) c = false
    · simp [hset]
    · rw [Bool.not_eq_false] at hset
      simp [hset]

theorem reverseOneHotAux_hasCol (data : Table) (lbl : String) :
    ∀ (fs : List String) (acc res : Table),
      reverseOneHotAux data fs acc = .ok res →
      (∀ f ∈ fs, lbl.startsWith f = false) →
      (∀ f ∈ fs, f ≠ lbl) →
      res.hasCol lbl = acc.hasCol lbl := by
  intro fs
  induction fs with
  | nil =>
    intro acc res h _ _
    simp only [reverseOneHotAux, Except.ok.injEq] at h
    rw [h]
  | cons f fs ih =>
    intro acc res h hsw hne
    simp only [reverseOneHotAux] at h
    split at h
    · exact absurd h (by simp)
    · have hstep := ih _ _ h (fun g hg => hsw g (List.mem_cons_of_mem _ hg))
        (fun g hg => hne g (List.mem_cons_of_mem _ hg))
      rw [hstep, Table.hasCol_setCol_ne _ _ _ _ (hne f (by simp)),
        Table.hasCol_dropCols]
      intro hmem
      rcases List.mem_filter.mp hmem with ⟨_, hsw2⟩
      rw [hsw f (by simp)] at hsw2
      exact Bool.false_ne_true hsw2

/-- C7 (amended): `compute_divergence` fails with `InvalidDataset` iff the
original table has none of the three label columns.  On the breast-cancer path
(no `class`, no `income`, `diagnosis` present) it fails with `LabelMismatch`
iff the perturbed table lacks `diagnosis`, and — when both carry `diagnosis` —
by assertion iff the label-value sets differ.  On the census path (well-formed
nonempty one-hot blocks, label not inside a block) it fails with
`LabelMismatch` iff the perturbed table lacks `income`.  On the
splice-junction path however a perturbed table lacking `class` makes the
multi-hot reversal itself fail with a `KeyError`, not with `LabelMismatch`,
contrary to the claim as stated. -/
theorem C7_error_behaviour (raw : Table → Table → FVal) (feats : List String)
    (o p : Table) :
    (compute_divergence raw feats o p = .error .invalidDataset ↔
      o.hasCol "class" = false ∧ o.hasCol "income" = false ∧
        o.hasCol "diagnosis" = false) ∧
    (o.hasCol "class" = false → o.hasCol "income" = false →
      o.hasCol "diagnosis" = true →
      ((compute_divergence raw feats o p = .error .labelMismatch ↔
          p.hasCol "diagnosis" = false) ∧
        (p.hasCol "diagnosis" = true →
          (compute_divergence raw feats o p = .error .assertFailed ↔
            listSetEqB (o.getCol "diagnosis") (p.getCol "diagnosis") = false)))) ∧
    (o.hasCol "class" = true → ¬ o.length < 240 → ¬ p.length < 240 →
      p.hasCol "class" = false →
      compute_divergence raw feats o p = .error .classKeyError) ∧
    (o.hasCol "class" = false → o.hasCol "income" = true →
      (∀ f ∈ feats, (o.names.filter fun c => c.startsWith f).isEmpty = false) →
      (∀ f ∈ feats, (p.names.filter fun c => c.startsWith f).isEmpty = false) →
      (∀ f ∈ feats, ("income".startsWith f) = false) →
      (∀ f ∈ feats, f ≠ "income") →
      (compute_divergence raw feats o p = .error .labelMismatch ↔
        p.hasCol "income" = false)) := by
  refine ⟨?_, ?_, ?_, ?_⟩
  · constructor
    · intro h
      by_cases hc : o.hasCol "class" = true
      · exfalso
        rcases hro : reverse_multi_hot o with e1 | od <;>
          rcases hrp : reverse_multi_hot p with e2 | pdt <;>
          simp only [compute_divergence, hc, if_true, hro, hrp] at h
        · rw [Except.error.injEq] at h
          rcases reverse_multi_hot_error o e1 hro with h2 | h2 <;>
            rw [h2] at h <;> exact Err.noConfusion h
        · rw [Except.error.injEq] at h
          rcases reverse_multi_hot_error o e1 hro with h2 | h2 <;>
            rw [h2] at h <;> exact Err.noConfusion h
        · rw [Except.error.injEq] at h
          rcases reverse_multi_hot_error p e2 hrp with h2 | h2 <;>
            rw [h2] at h <;> exact Err.noConfusion h
        · exact divergenceTail_ne_invalid raw od pdt "class" h
      · by_cases hi : o.hasCol "income" = true
        · exfalso
          rw [Bool.not_eq_true] at hc
          rcases hro : reverse_one_hot o feats with e1 | od <;>
            rcases hrp : reverse_one_hot p feats with e2 | pdt <;>
            simp only [compute_divergence, hc, hi, Bool.false_eq_true,
              if_false, if_true, hro, hrp] at h
          · rw [Except.error.injEq] at h
            rw [reverseOneHotAux_error o feats o e1 hro] at h
            exact Err.noConfusion h
          · rw [Except.error.injEq] at h
            rw [reverseOneHotAux_error o feats o e1 hro] at h
            exact Err.noConfusion h
          · rw [Except.error.injEq] at h
            rw [reverseOneHotAux_error p feats p e2 hrp] at h
            exact Err.noConfusion h
          · exact divergenceTail_ne_invalid raw od pdt "income" h
        · by_cases hd : o.hasCol "diagnosis" = true
          · exfalso
            rw [Bool.not_eq_true] at hc hi
            simp only [compute_divergence, hc, hi, hd, Bool.false_eq_true,
              if_false, if_true] at h
            exact divergenceTail_ne_invalid raw o p "diagnosis" h
          · rw [Bool.not_eq_true] at hc hi hd
            exact ⟨hc, hi, hd⟩
    · rintro ⟨hc, hi, hd⟩
      simp [compute_divergence, hc, hi, hd]
  · intro hc hi hd
    have key : compute_divergence raw feats o p =
        divergenceTail raw o p "diagnosis" := by
      simp only [compute_divergence, hc, hi, hd, Bool.false_eq_true, if_false,
        if_true]
    rw [key]
    exact ⟨divergenceTail_labelMismatch_iff raw o p "diagnosis",
      fun hp => divergenceTail_assert_iff raw o p "diagnosis" hp⟩
  · intro hc hol hpl hpc
    rcases ho : o.find? "class" with _ | oc
    · rw [Table.hasCol, ho] at hc
      simp at hc
    · have hrevo : reverse_multi_hot o = .ok
          (((List.range 60).map fun i =>
            (toString i,
              zip4WithQ (fun a b c d => a * 1 + b * 3 + c * 5 + d * 10)
                (o.getD (4 * i) ("", [])).2 (o.getD (4 * i + 1) ("", [])).2
                (o.getD (4 * i + 2) ("", [])).2 (o.getD (4 * i + 3) ("", [])).2)) ++
            [("class", oc)]) := by
        simp only [reverse_multi_hot]
        rw [if_neg hol, ho]
      have hrevp : reverse_multi_hot p = .error .classKeyError := by
        have hpf : p.find? "class" = none := by
          rw [Table.hasCol] at hpc
          rcases hf : p.find? "class" with _ | c
          · rfl
          · rw [hf] at hpc; simp at hpc
        simp [reverse_multi_hot, hpl, hpf]
      simp [compute_divergence, hc, hrevo, hrevp]
  · intro hc hi hbo hbp hsw hne
    rcases reverseOneHotAux_ok o feats o hbo with ⟨od, hod⟩
    rcases reverseOneHotAux_ok p feats p hbp with ⟨pdt, hpd⟩
    have hodr : reverse_one_hot o feats = .ok od := hod
    have hpdr : reverse_one_hot p feats = .ok pdt := hpd
    have hstable : pdt.hasCol "income" = p.hasCol "income" :=
      reverseOneHotAux_hasCol p "income" feats p pdt hpd hsw hne
    have key : compute_divergence raw feats o p =
        divergenceTail raw od pdt "income" := by
      simp only [compute_divergence, hc, hi, Bool.false_eq_true, if_false,
        if_true, hodr, hpdr]
    rw [key, ← hstable]
    exact divergenceTail_labelMismatch_iff raw od pdt "income"

set_option maxRecDepth 100000 in
/-- Counterexample to C7 as stated: a well-shaped splice-junction pair whose
perturbed table lacks the `class` column fails with the reversal `KeyError`,
not with the label-mismatch error the claim requires. -/
theorem C7_counterexample :
    compute_divergence rawOne [] tableSJC tableSJ = .error .classKeyError ∧
    Err.classKeyError ≠ Err.labelMismatch :=
  ⟨of_decide_eq_true (by with_unfolding_all rfl), by decide⟩

/-- Witness for the amended C7: the breast-cancer path returns `LabelMismatch`
on a perturbed table lacking the label column. -/
theorem C7_witness :
    compute_divergence rawOne [] tableBC [("x", [0])] = .error .labelMismatch :=
  (((C7_error_behaviour rawOne [] tableBC [("x", [0])]).2.1 (by decide)
    (by decide) (by decide)).1).mpr (by decide)

/-! ## Fold invariants shared by C4 and C1 -/

theorem foldl_preserve {α β : Type _} (P : β → Prop) (step : β → α → β)
    (l : List α) (init : β) (h0 : P init)
    (hstep : ∀ b a, a ∈ l → P b → P (step b a)) : P (l.foldl step init) := by
  induction l generalizing init with
  | nil => exact h0
  | cons x xs ih =>
    exact ih (step init x) (hstep init x (by simp) h0)
      (fun b a ha => hstep b a (List.mem_cons_of_mem _ ha))

theorem mem_split_nodup {α : Type _} (l : List α) (x : α)
    (hx : x ∈ l) (hn : l.Nodup) :
    ∃ l1 l2, l = l1 ++ x :: l2 ∧ x ∉ l1 ∧ x ∉ l2 := by
  rcases List.append_of_mem hx with ⟨l1, l2, rfl⟩
  rw [List.nodup_append] at hn
  rcases hn with ⟨h1, h2, hdisj⟩
  exact ⟨l1, l2, rfl, fun hin => hdisj hin (by simp),
    (List.nodup_cons.mp h2).1⟩

theorem mapNoise_length (g : ℚ → ℚ → ℚ) (mu sigma : ℚ) :
    ∀ (l : List ℚ) (r : RNG), ((mapNoise g mu sigma l r).1).length = l.length := by
  intro l
  induction l with
  | nil => intro r; rfl
  | cons x xs ih => intro r; simp [mapNoise, ih]

/-! ## C4: ordinal noise stays inside the observed bounds -/

theorem colMin_isSome (l : List ℚ) (h : l ≠ []) : ∃ m, colMin l = some m := by
  cases l with
  | nil => exact absurd rfl h
  | cons x xs =>
    simp only [colMin]
    cases colMin xs <;> simp

theorem colMax_isSome (l : List ℚ) (h : l ≠ []) : ∃ m, colMax l = some m := by
  cases l with
  | nil => exact absurd rfl h
  | cons x xs =>
    simp only [colMax]
    cases colMax xs <;> simp

theorem colMin_eq_none (l : List ℚ) (h : colMin l = none) : l = [] := by
  cases l with
  | nil => rfl
  | cons x xs =>
    exfalso
    simp only [colMin] at h
    cases hm : colMin xs <;> rw [hm] at h <;> simp at h

theorem colMax_eq_none (l : List ℚ) (h : colMax l = none) : l = [] := by
  cases l with
  | nil => rfl
  | cons x xs =>
    exfalso
    simp only [colMax] at h
    cases hm : colMax xs <;> rw [hm] at h <;> simp at h

theorem colMin_le_colMax : ∀ (l : List ℚ) (lo hi : ℚ),
    colMin l = some lo → colMax l = some hi → lo ≤ hi := by
  intro l
  induction l with
  | nil => intro lo hi h1 _; simp [colMin] at h1
  | cons x xs ih =>
    intro lo hi h1 h2
    simp only [colMin] at h1
    simp only [colMax] at h2
    cases hmi : colMin xs with
    | none =>
      have hxs := colMin_eq_none xs hmi
      subst hxs
      rw [hmi] at h1
      simp only [colMax] at h2
      rw [Option.some.injEq] at h1 h2
      rw [← h1, ← h2]
    | some m =>
      cases hma : colMax xs with
      | none =>
        exfalso
        have hxs := colMax_eq_none xs hma
        subst hxs
        simp [colMin] at hmi
      | some M =>
        rw [hmi] at h1
        rw [hma] at h2
        rw [Option.some.injEq] at h1 h2
        have hmM := ih m M hmi hma
        subst h1 h2
        split_ifs <;> linarith

theorem add_noise_getCol_self (f : String) (t : Table) (mu sigma : ℚ) (r : RNG) :
    ((add_noise_to_ordinal_feature f t mu sigma r).1).getCol f =
      (((mapNoise (fun j d => ((pyRound (j + d) : ℤ) : ℚ)) mu sigma
          (t.getCol f) r).1.map (clampAbove (colMax (t.getCol f)))).map
        (clampBelow (colMin (t.getCol f)))) := by
  simp only [add_noise_to_ordinal_feature]
  rw [Table.getCol_setCol_self, Table.getCol_setCol_self, Table.getCol_setCol_self]

theorem add_noise_getCol_ne (f : String) (t : Table) (mu sigma : ℚ) (r : RNG)
    (c : String) (hc : c ≠ f) :
    ((add_noise_to_ordinal_feature f t mu sigma r).1).getCol c = t.getCol c := by
  simp only [add_noise_to_ordinal_feature]
  rw [Table.getCol_setCol_ne _ _ _ _ (fun he => hc he.symm),
    Table.getCol_setCol_ne _ _ _ _ (fun he => hc he.symm),
    Table.getCol_setCol_ne _ _ _ _ (fun he => hc he.symm)]

theorem add_noise_bounds (f : String) (t : Table) (mu sigma : ℚ) (r : RNG) :
    ∀ v ∈ ((add_noise_to_ordinal_feature f t mu sigma r).1).getCol f,
      ∃ lo hi, colMin (t.getCol f) = some lo ∧ colMax (t.getCol f) = some hi ∧
        lo ≤ v ∧ v ≤ hi := by
  intro v hv
  rw [add_noise_getCol_self] at hv
  rcases List.mem_map.mp hv with ⟨w, hw, rfl⟩
  rcases List.mem_map.mp hw with ⟨u, hu, rfl⟩
  have hne : t.getCol f ≠ [] := by
    intro h0
    rw [h0] at hu
    simp [mapNoise] at hu
  rcases colMin_isSome _ hne with ⟨lo, hlo⟩
  rcases colMax_isSome _ hne with ⟨hi, hhi⟩
  have hlh := colMin_le_colMax _ _ _ hlo hhi
  refine ⟨lo, hi, hlo, hhi, ?_, ?_⟩ <;>
    rw [hlo, hhi] <;>
    simp only [clampAbove, clampBelow] <;>
    split_ifs <;> linarith

theorem ordinal_fold_getCol_ne (mu sigma : ℚ) (c : String) :
    ∀ (ns : List String) (init : Table × RNG), c ∉ ns →
      (ns.foldl (fun s f => add_noise_to_ordinal_feature f s.1 mu sigma s.2)
        init).1.getCol c = init.1.getCol c := by
  intro ns
  induction ns with
  | nil => intro init _; rfl
  | cons f fs ih =>
    intro init hc
    simp only [List.foldl_cons]
    rw [ih _ (fun h => hc (List.mem_cons_of_mem _ h)),
      add_noise_getCol_ne f init.1 mu sigma init.2 c
        (fun he => hc (by rw [he]; exact List.mem_cons_self _ _))]

/-- Bounds through the ordinal-feature fold: if `c` occurs exactly once in the
processed feature list, every value of the final `c` column lies between the
observed min and max of the initial `c` column. -/
theorem ordinal_fold_bounds (mu sigma : ℚ) (c : String) :
    ∀ (ns : List String) (init : Table × RNG), c ∈ ns → ns.Nodup →
      ∀ v ∈ (ns.foldl (fun s f => add_noise_to_ordinal_feature f s.1 mu sigma s.2)
          init).1.getCol c,
        ∃ lo hi, colMin (init.1.getCol c) = some lo ∧
          colMax (init.1.getCol c) = some hi ∧ lo ≤ v ∧ v ≤ hi := by
  intro ns
  induction ns with
  | nil => intro init hc; simp at hc
  | cons f fs ih =>
    intro init hc hnd v hv
    simp only [List.foldl_cons] at hv
    by_cases hf : f = c
    · subst hf
      rw [ordinal_fold_getCol_ne mu sigma f fs _ (List.nodup_cons.mp hnd).1]
        at hv
      exact add_noise_bounds f init.1 mu sigma init.2 v hv
    · have hcfs : c ∈ fs := by
        rcases List.mem_cons.mp hc with h | h
        · exact absurd h.symm hf
        · exact h
      have := ih (add_noise_to_ordinal_feature f init.1 mu sigma init.2) hcfs
        (List.nodup_cons.mp hnd).2 v hv
      rwa [add_noise_getCol_ne f init.1 mu sigma init.2 c
        (fun he => hf he.symm)] at this

theorem censusIntegerStep_getCol_ne (mu sigma : ℚ) (s : Table × RNG)
    (f c : String) (hc : c ≠ f) :
    ((censusIntegerStep mu sigma s f).1).getCol c = s.1.getCol c := by
  have base : ∀ (t : Table) (v : List ℚ), (t.setCol f v).getCol c = t.getCol c :=
    fun t v => Table.getCol_setCol_ne t f c v (fun he => hc he.symm)
  simp only [censusIntegerStep]
  split
  · simp only [base]
  · split
    · simp only [base]
    · simp only [base]

theorem censusBinaryStep_getCol_ne (mu sigma : ℚ) (s : Table × RNG)
    (f c : String) (hc : c ≠ f) :
    ((censusBinaryStep mu sigma s f).1).getCol c = s.1.getCol c := by
  have base : ∀ (t : Table) (v : List ℚ), (t.setCol f v).getCol c = t.getCol c :=
    fun t v => Table.getCol_setCol_ne t f c v (fun he => hc he.symm)
  simp only [censusBinaryStep]
  simp only [base]

theorem censusNominalStep_getCol_ne (E : Env) (mu sigma : ℚ) (seed : ℕ)
    (s : Table × RNG) (f c : String) (hc : c.startsWith f = false) :
    ((censusNominalStep E mu sigma seed s f).1).getCol c = s.1.getCol c := by
  simp only [censusNominalStep]
  split
  · dsimp only
    apply foldl_preserve (fun t2 : Table => t2.getCol c = s.1.getCol c)
    · rfl
    · intro b a ha hb
      have hsw : a.startsWith f = true := (List.mem_filter.mp ha).2
      have hac : a ≠ c := by
        intro he
        rw [he, hc] at hsw
        exact Bool.false_ne_true hsw
      rw [Table.getCol_setCol_ne _ _ _ _ hac]
      exact hb
  · rfl

theorem integer_fold_getCol_ne (mu sigma : ℚ) (c : String) :
    ∀ (fs : List String) (init : Table × RNG), c ∉ fs →
      (fs.foldl (censusIntegerStep mu sigma) init).1.getCol c =
        init.1.getCol c := by
  intro fs
  induction fs with
  | nil => intro init _; rfl
  | cons f fs ih =>
    intro init hc
    simp only [List.foldl_cons]
    rw [ih _ (fun h => hc (List.mem_cons_of_mem _ h)),
      censusIntegerStep_getCol_ne mu sigma init f c
        (fun he => hc (by rw [he]; exact List.mem_cons_self _ _))]

theorem binary_fold_getCol_ne (mu sigma : ℚ) (c : String) :
    ∀ (fs : List String) (init : Table × RNG), c ∉ fs →
      (fs.foldl (censusBinaryStep mu sigma) init).1.getCol c =
        init.1.getCol c := by
  intro fs
  induction fs with
  | nil => intro init _; rfl
  | cons f fs ih =>
    intro init hc
    simp only [List.foldl_cons]
    rw [ih _ (fun h => hc (List.mem_cons_of_mem _ h)),
      censusBinaryStep_getCol_ne mu sigma init f c
        (fun he => hc (by rw [he]; exact List.mem_cons_self _ _))]

theorem nominal_fold_getCol_ne (E : Env) (mu sigma : ℚ) (seed : ℕ)
    (c : String) :
    ∀ (fs : List String) (init : Table × RNG),
      (∀ f ∈ fs, c.startsWith f = false) →
      (fs.foldl (censusNominalStep E mu sigma seed) init).1.getCol c =
        init.1.getCol c := by
  intro fs
  induction fs with
  | nil => intro init _; rfl
  | cons f fs ih =>
    intro init hc
    simp only [List.foldl_cons]
    rw [ih _ (fun g hg => hc g (List.mem_cons_of_mem _ hg)),
      censusNominalStep_getCol_ne E mu sigma seed init f c (hc f (by simp))]

/-- C4: every breast-cancer column (the first conjunct) and every census
ordinal feature (the second conjunct, under the schema well-formedness the
real dataset satisfies) is clamped by `apply_noise` to the observed
`[min, max]` of the same column of the input table. -/
theorem C4_ordinal_bounds (E : Env) (S : CensusSchema) (mu sigma : ℚ)
    (seed : ℕ) :
    (∀ (data out : Table) (c : String), data.names.Nodup → c ∈ data.names →
      apply_noise E S data mu sigma breastCancerName seed = .ok out →
      ∀ v ∈ out.getCol c, ∃ lo hi,
        colMin (data.getCol c) = some lo ∧ colMax (data.getCol c) = some hi ∧
        lo ≤ v ∧ v ≤ hi) ∧
    (∀ (data out : Table) (c : String), S.ordinal_features.Nodup →
      c ∈ S.ordinal_features → c ∉ S.integer_features →
      c ∉ S.binary_features →
      (∀ f ∈ S.nominal_features, c.startsWith f = false) →
      apply_noise E S data mu sigma censusIncomeName seed = .ok out →
      ∀ v ∈ out.getCol c, ∃ lo hi,
        colMin (data.getCol c) = some lo ∧ colMax (data.getCol c) = some hi ∧
        lo ≤ v ∧ v ≤ hi) := by
  constructor
  · intro data out c hnd hc h
    simp only [apply_noise, eq_self_iff_true, if_true] at h
    rw [Except.ok.injEq] at h
    subst h
    simp only [apply_noise_to_breast_cancer]
    exact ordinal_fold_bounds mu sigma c data.names (data, seedRNG E seed) hc hnd
  · intro data out c hord hc hci hcb hcn h
    rw [apply_noise, if_neg (by decide), if_neg (by decide), if_pos rfl] at h
    rw [Except.ok.injEq] at h
    subst h
    simp only [apply_noise_to_census_income]
    intro v hv
    rw [nominal_fold_getCol_ne E mu sigma seed c S.nominal_features _ hcn] at hv
    have hbounds := ordinal_fold_bounds mu sigma c S.ordinal_features
      (S.binary_features.foldl (censusBinaryStep mu sigma)
        (S.integer_features.foldl (censusIntegerStep mu sigma)
          (data, seedRNG E seed))) hc hord v hv
    rwa [binary_fold_getCol_ne mu sigma c S.binary_features _ hcb,
      integer_fold_getCol_ne mu sigma c S.integer_features _ hci] at hbounds

/-! ## C1: one-hot blocks stay one-hot -/

theorem List.getD_map_of_lt {α β : Type _} (g : α → β) (l : List α)
    (i : ℕ) (h : i < l.length) (d : β) (d' : α) :
    (l.map g).getD i d = g (l.getD i d') := by
  rw [List.getD_of_lt _ d' i h, List.getD_of_lt _ d i (by simpa using h)]
  simp

theorem nodup_getD_ne (l : List String) (hnd : l.Nodup) (a b : ℕ) (d : String)
    (ha : a < l.length) (hb : b < l.length) (hab : a ≠ b) :
    l.getD a d ≠ l.getD b d := by
  rw [List.getD_of_lt _ d a ha, List.getD_of_lt _ d b hb]
  intro he
  have := (List.Nodup.get_inj_iff hnd).mp he
  rw [Fin.mk.injEq] at this
  exact hab this

theorem zip4With_length (f : Option ℚ → Option ℚ → Option ℚ → Option ℚ → ℚ) :
    ∀ (a b c d : List (Option ℚ)) (n : ℕ), a.length = n → b.length = n →
      c.length = n → d.length = n → (zip4With f a b c d).length = n := by
  intro a
  induction a with
  | nil => intro b c d n ha _ _ _; rw [← ha]; rfl
  | cons x xs ih =>
    intro b c d n ha hb hc hd
    cases b with
    | nil => rw [← ha] at hb; simp at hb
    | cons y ys =>
      cases c with
      | nil => rw [← ha] at hc; simp at hc
      | cons z zs =>
        cases d with
        | nil => rw [← ha] at hd; simp at hd
        | cons w ws =>
          cases n with
          | zero => simp at ha
          | succ m =>
            simp only [zip4With, List.length_cons]
            rw [ih ys zs ws m (by simpa using ha) (by simpa using hb)
              (by simpa using hc) (by simpa using hd)]

theorem zip4With_getD (f : Option ℚ → Option ℚ → Option ℚ → Option ℚ → ℚ) :
    ∀ (a b c d : List (Option ℚ)) (i : ℕ), i < a.length → i < b.length →
      i < c.length → i < d.length →
      (zip4With f a b c d).getD i 0 =
        f (a.getD i none) (b.getD i none) (c.getD i none) (d.getD i none) := by
  intro a
  induction a with
  | nil => intro b c d i ha; simp at ha
  | cons x xs ih =>
    intro b c d i ha hb hc hd
    cases b with
    | nil => simp at hb
    | cons y ys =>
      cases c with
      | nil => simp at hc
      | cons z zs =>
        cases d with
        | nil => simp at hd
        | cons w ws =>
          cases i with
          | zero => rfl
          | succ j =>
            simp only [zip4With, List.getD_cons_succ]
            exact ih ys zs ws j (by simpa using ha) (by simpa using hb)
              (by simpa using hc) (by simpa using hd)

theorem spliceNoiseCol_length (mu sigma target : ℚ) :
    ∀ (l : List ℚ) (r : RNG),
      ((spliceNoiseCol mu sigma target l r).1).length = l.length := by
  intro l
  induction l with
  | nil => intro r; rfl
  | cons x xs ih =>
    intro r
    simp only [spliceNoiseCol]
    split <;> simp [ih]

theorem spliceNoiseCol_getD (mu sigma target : ℚ) :
    ∀ (l : List ℚ) (r : RNG) (i : ℕ), i < l.length →
      ∃ w, ((spliceNoiseCol mu sigma target l r).1).getD i none =
        if l.getD i 0 = 1 then some ((pyRound (target + w) : ℤ) : ℚ) else none := by
  intro l
  induction l with
  | nil => intro r i h; simp at h
  | cons x xs ih =>
    intro r i h
    cases i with
    | zero =>
      simp only [spliceNoiseCol, List.getD_cons_zero]
      by_cases hx : x = 1
      · exact ⟨(r.draw mu sigma).1, by simp [hx]⟩
      · exact ⟨0, by simp [hx]⟩
    | succ j =>
      have hj : j < xs.length := by simpa using h
      simp only [spliceNoiseCol]
      by_cases hx : x = 1
      · rcases ih (r.draw mu sigma).2 j hj with ⟨w, hw⟩
        refine ⟨w, ?_⟩
        rw [if_pos hx]
        simp only [List.getD_cons_succ]
        exact hw
      · rcases ih r j hj with ⟨w, hw⟩
        refine ⟨w, ?_⟩
        rw [if_neg hx]
        simp only [List.getD_cons_succ]
        exact hw

theorem mapNoise_getD (g : ℚ → ℚ → ℚ) (mu sigma : ℚ) :
    ∀ (l : List ℚ) (r : RNG) (i : ℕ), i < l.length → ∀ (d : ℚ),
      ∃ w, ((mapNoise g mu sigma l r).1).getD i d = g (l.getD i d) w := by
  intro l
  induction l with
  | nil => intro r i h; simp at h
  | cons x xs ih =>
    intro r i h d
    cases i with
    | zero => exact ⟨(r.draw mu sigma).1, rfl⟩
    | succ j =>
      have hj : j < xs.length := by simpa using h
      rcases ih (r.draw mu sigma).2 j hj d with ⟨w, hw⟩
      exact ⟨w, by simpa [mapNoise, List.getD_cons_succ] using hw⟩

theorem splice_clamp_fin (z : ℤ) :
    ∃ m : Fin 4, spliceClampLo (spliceClampHi (some ((z : ℤ) : ℚ))) =
      some ((m : ℕ) : ℚ) := by
  by_cases h3 : (3 : ℚ) < (z : ℚ)
  · have hnn : ¬ ((3 : ℚ) < 0) := by norm_num
    refine ⟨⟨3, by norm_num⟩, ?_⟩
    simp [spliceClampHi, spliceClampLo, h3, hnn]
  · by_cases h0 : ((z : ℚ)) < 0
    · refine ⟨⟨0, by norm_num⟩, ?_⟩
      simp [spliceClampHi, spliceClampLo, h3, h0]
    · have hz0 : (0 : ℤ) ≤ z := by exact_mod_cast not_lt.mp h0
      have hz3 : z ≤ 3 := by exact_mod_cast not_lt.mp h3
      refine ⟨⟨z.toNat, ?_⟩, ?_⟩
      · omega
      · simp only [spliceClampHi, spliceClampLo, if_neg h3, if_neg h0]
        congr 1
        exact_mod_cast (Int.toNat_of_nonneg hz0).symm

theorem census_clamp_fin (L : ℕ) (hL : 0 < L) (z : ℤ) :
    ∃ m : Fin L,
      (if (if ((L : ℚ) - 1) < ((z : ℤ) : ℚ) then (L : ℚ) - 1 else ((z : ℤ) : ℚ)) < 0
        then 0
        else if ((L : ℚ) - 1) < ((z : ℤ) : ℚ) then (L : ℚ) - 1 else ((z : ℤ) : ℚ)) =
      ((m : ℕ) : ℚ) := by
  have hL1 : (1 : ℕ) ≤ L := hL
  have hcast : ((L - 1 : ℕ) : ℚ) = (L : ℚ) - 1 := by
    push_cast [Nat.cast_sub hL1]
    ring
  by_cases hhi : ((L : ℚ) - 1) < ((z : ℤ) : ℚ)
  · have hnn : ¬ ((L : ℚ) - 1 < 0) := by
      rw [not_lt, sub_nonneg]
      exact_mod_cast hL1
    refine ⟨⟨L - 1, by omega⟩, ?_⟩
    have e1 : (if ((L : ℚ) - 1) < ((z : ℤ) : ℚ) then (L : ℚ) - 1
        else ((z : ℤ) : ℚ)) = (L : ℚ) - 1 := if_pos hhi
    rw [e1, if_neg hnn]
    exact hcast.symm
  · by_cases hlo : ((z : ℤ) : ℚ) < 0
    · refine ⟨⟨0, hL⟩, ?_⟩
      rw [if_neg hhi, if_pos hlo]
      norm_num
    · have hz0 : (0 : ℤ) ≤ z := by exact_mod_cast not_lt.mp hlo
      have hzL : z ≤ (L : ℤ) - 1 := by
        have h2 := not_lt.mp hhi
        exact_mod_cast h2
      refine ⟨⟨z.toNat, by omega⟩, ?_⟩
      rw [if_neg hhi, if_neg hlo]
      exact_mod_cast (Int.toNat_of_nonneg hz0).symm
theorem C4_witness :
    (∃ lo hi, colMin (tableBC.getCol "diagnosis") = some lo ∧
      colMax (tableBC.getCol "diagnosis") = some hi ∧
      lo ≤ (1 : ℚ) ∧ (1 : ℚ) ≤ hi) ∧
    (∃ lo hi, colMin (tableCI.getCol "ord") = some lo ∧
      colMax (tableCI.getCol "ord") = some hi ∧
      lo ≤ (2 : ℚ) ∧ (2 : ℚ) ≤ hi) :=
  ⟨(C4_ordinal_bounds envW schemaW 0 1 0).1 tableBC [("diagnosis", [1, 1])]
    "diagnosis" (by decide) (by decide)
    (of_decide_eq_true (by with_unfolding_all rfl)) 1 (by decide),
  (C4_ordinal_bounds envZ schemaN 0 1 5).2 tableCI tableCI "ord" (by decide)
    (by decide) (by decide) (by decide)
    (of_decide_eq_true (by with_unfolding_all rfl))
    (of_decide_eq_true (by with_unfolding_all rfl)) 2
    (of_decide_eq_true (by with_unfolding_all rfl))⟩

theorem ratIdx_natCast (m L : ℕ) (hL : 0 < L) (hm : m < L) :
    ratIdx ((m : ℕ) : ℚ) L hL = ⟨m, hm⟩ := by
  apply Fin.ext
  show ((m : ℕ) : ℚ).num.toNat % L = m
  rw [Rat.num_natCast]
  simp [Nat.mod_eq_of_lt hm]

theorem foldl_setCol_getCol_notmem (g : String → List ℚ) :
    ∀ (cs : List String) (t : Table) (c : String), c ∉ cs →
      (cs.foldl (fun acc v => acc.setCol v (g v)) t).getCol c = t.getCol c := by
  intro cs
  induction cs with
  | nil => intro t c _; rfl
  | cons v vs ih =>
    intro t c hc
    simp only [List.foldl_cons]
    rw [ih _ _ (fun h => hc (List.mem_cons_of_mem _ h)),
      Table.getCol_setCol_ne _ _ _ _
        (fun he => hc (by rw [← he]; exact List.mem_cons_self _ _))]

theorem foldl_setCol_getCol_mem (g : String → List ℚ) :
    ∀ (cs : List String) (t : Table) (c : String), c ∈ cs → cs.Nodup →
      (cs.foldl (fun acc v => acc.setCol v (g v)) t).getCol c = g c := by
  intro cs
  induction cs with
  | nil => intro t c hc; simp at hc
  | cons v vs ih =>
    intro t c hc hnd
    simp only [List.foldl_cons]
    by_cases hcv : c = v
    · subst hcv
      rw [foldl_setCol_getCol_notmem g vs _ c (List.nodup_cons.mp hnd).1,
        Table.getCol_setCol_self]
    · have hcs : c ∈ vs := by
        rcases List.mem_cons.mp hc with h | h
        · exact absurd h hcv
        · exact h
      exact ih _ c hcs (List.nodup_cons.mp hnd).2

theorem foldl_setCol_names (g : String → List ℚ) :
    ∀ (cs : List String) (t : Table), (∀ v ∈ cs, v ∈ t.names) →
      (cs.foldl (fun acc v => acc.setCol v (g v)) t).names = t.names := by
  intro cs
  induction cs with
  | nil => intro t _; rfl
  | cons v vs ih =>
    intro t hm
    simp only [List.foldl_cons]
    have hn : (t.setCol v (g v)).names = t.names :=
      Table.names_setCol t v (g v) (Table.hasCol_of_mem_names t v (hm v (by simp)))
    rw [ih _ (fun w hw => by rw [hn]; exact hm w (List.mem_cons_of_mem _ hw)), hn]

theorem foldl_setCol_uniform (g : String → List ℚ) (n : ℕ) :
    ∀ (cs : List String) (t : Table), t.Uniform n →
      (∀ v ∈ cs, (g v).length = n) →
      (cs.foldl (fun acc v => acc.setCol v (g v)) t).Uniform n := by
  intro cs
  induction cs with
  | nil => intro t hu _; exact hu
  | cons v vs ih =>
    intro t hu hg
    simp only [List.foldl_cons]
    exact ih _ (Table.Uniform.setCol hu v (g v) (hg v (by simp)))
      (fun w hw => hg w (List.mem_cons_of_mem _ hw))

theorem censusNominalStep_names (E : Env) (mu sigma : ℚ) (seed : ℕ)
    (s : Table × RNG) (f : String) :
    ((censusNominalStep E mu sigma seed s f).1).names = s.1.names := by
  simp only [censusNominalStep]
  split
  · dsimp only
    apply foldl_setCol_names
    intro v hv
    exact (List.mem_filter.mp hv).1
  · rfl

theorem censusNominalStep_uniform (E : Env) (mu sigma : ℚ) (seed : ℕ)
    (s : Table × RNG) (f : String) (n : ℕ) (hu : s.1.Uniform n) :
    ((censusNominalStep E mu sigma seed s f).1).Uniform n := by
  simp only [censusNominalStep]
  split
  · rename_i hL
    dsimp only
    apply foldl_setCol_uniform _ n _ _ hu
    intro v hv
    have htne : s.1 ≠ [] := by
      intro h0
      rw [h0] at hL
      simp [Table.names] at hL
    simp [mapNoise_length, Table.nrows_eq hu htne]
  · exact hu

theorem mapNoise_pyRound_getD (mu sigma : ℚ) (l : List ℚ) (r0 : RNG)
    (i : ℕ) (h : i < l.length) :
    ∃ z : ℤ, ((mapNoise (fun j d => ((pyRound (j + d) : ℤ) : ℚ)) mu sigma l
      r0).1).getD i 0 = ((z : ℤ) : ℚ) := by
  rcases mapNoise_getD (fun j d => ((pyRound (j + d) : ℤ) : ℚ)) mu sigma l r0
    i h 0 with ⟨w, hw⟩
  exact ⟨pyRound (l.getD i 0 + w), hw⟩

/-- The two census clamp passes send an integer-valued cell to a block index. -/
theorem census_clamped_getD_fin (L : ℕ) (hL : 0 < L) (noisy : List ℚ)
    (i : ℕ) (hi : i < noisy.length)
    (hz : ∃ z : ℤ, noisy.getD i 0 = ((z : ℤ) : ℚ)) :
    ∃ m : Fin L,
      ((noisy.map fun j => if ((L : ℚ) - 1) < j then (L : ℚ) - 1 else j).map
        (fun j => if j < 0 then 0 else j)).getD i 0 = ((m : ℕ) : ℚ) := by
  rcases hz with ⟨z, hzeq⟩
  rw [List.getD_map_of_lt _ _ i (by simpa using hi) 0 0,
    List.getD_map_of_lt _ _ i hi 0 0, hzeq]
  exact census_clamp_fin L hL z

/-- Write-back fold of the census nominal step: if the clamped index column
holds a block index at row `r`, exactly one block column receives a 1 there. -/
theorem setColFold_onehot (values : List String) (hndv : values.Nodup)
    (sig : Equiv.Perm (Fin values.length)) (c2 : List ℚ)
    (hL : 0 < values.length) (t : Table) (r : ℕ) (hr : r < c2.length)
    (hfin : ∃ m : Fin values.length, c2.getD r 0 = ((m : ℕ) : ℚ)) :
    ∃! k : Fin values.length,
      ((values.foldl (fun acc v => acc.setCol v (c2.map fun j =>
          if values.getD (sig (ratIdx j values.length hL) : Fin values.length) "" = v
          then 1 else 0)) t).getCol (values.get k)).getD r 0 = 1 := by
  rcases hfin with ⟨m, hm⟩
  have hmem : ∀ k : Fin values.length, values.get k ∈ values :=
    fun k => List.get_mem values k.1 k.2
  have hval : ∀ k : Fin values.length,
      ((values.foldl (fun acc v => acc.setCol v (c2.map fun j =>
          if values.getD (sig (ratIdx j values.length hL) : Fin values.length) "" = v
          then 1 else 0)) t).getCol (values.get k)).getD r 0 =
        if values.get (sig m) = values.get k then 1 else 0 := by
    intro k
    rw [foldl_setCol_getCol_mem _ values t (values.get k) (hmem k) hndv,
      List.getD_map_of_lt _ _ r hr 0 0, hm, ratIdx_natCast _ _ hL m.isLt,
      List.getD_of_lt _ _ _ (Fin.isLt (sig ⟨(m : ℕ), m.isLt⟩))]
  refine ⟨sig m, ?_, ?_⟩
  · exact (hval (sig m)).trans (if_pos rfl)
  · intro y hy
    have hy2 : (if values.get (sig m) = values.get y then (1 : ℚ) else 0) = 1 :=
      (hval y).symm.trans hy
    by_cases heq : values.get (sig m) = values.get y
    · exact ((List.Nodup.get_inj_iff hndv).mp heq).symm
    · rw [if_neg heq] at hy2
      norm_num at hy2

/-- Core of the census part of C1: the nominal-feature step rebuilds its block
as an exact one-hot encoding — for every row exactly one block column holds 1
(whatever the block held before). -/
theorem censusNominalStep_onehot (E : Env) (mu sigma : ℚ) (seed : ℕ)
    (s : Table × RNG) (f : String) (n : ℕ)
    (hnd : s.1.names.Nodup) (hu : s.1.Uniform n)
    (hne : s.1.names.filter (fun c => c.startsWith f) ≠ []) :
    ∀ r, r < n →
      ∃! k : Fin (s.1.names.filter (fun c => c.startsWith f)).length,
        (((censusNominalStep E mu sigma seed s f).1).getCol
          ((s.1.names.filter (fun c => c.startsWith f)).get k)).getD r 0 = 1 := by
  intro r hr
  have hL : 0 < (s.1.names.filter (fun c => c.startsWith f)).length :=
    List.length_pos.mpr hne
  have hndv : (s.1.names.filter (fun c => c.startsWith f)).Nodup := hnd.filter _
  have htne : s.1 ≠ [] := by
    intro h0
    apply hne
    rw [h0]
    rfl
  have hnrows : s.1.nrows = n := Table.nrows_eq hu htne
  simp only [censusNominalStep]
  rw [dif_pos hL]
  dsimp only
  apply setColFold_onehot _ hndv
  · simp only [List.length_map]
    rw [mapNoise_length]
    simp only [List.length_map, List.length_range]
    rw [hnrows]
    exact hr
  · apply census_clamped_getD_fin _ hL
    · rw [mapNoise_length]
      simp only [List.length_map, List.length_range]
      rw [hnrows]
      exact hr
    · apply mapNoise_pyRound_getD
      simp only [List.length_map, List.length_range]
      rw [hnrows]
      exact hr

theorem setCol_NU (t : Table) (N : List String) (n : ℕ) (f : String)
    (v : List ℚ) (hf : f ∈ N) (hN : t.names = N) (hu : t.Uniform n)
    (hv : v.length = n) :
    (t.setCol f v).names = N ∧ (t.setCol f v).Uniform n := by
  constructor
  · rw [Table.names_setCol t f v (Table.hasCol_of_mem_names t f (by rw [hN]; exact hf))]
    exact hN
  · exact Table.Uniform.setCol hu f v hv

theorem getCol_length_NU {t : Table} {N : List String} {n : ℕ} (f : String)
    (hf : f ∈ N) (hN : t.names = N) (hu : t.Uniform n) :
    (t.getCol f).length = n :=
  Table.getCol_length hu f (Table.hasCol_of_mem_names t f (by rw [hN]; exact hf))

theorem setCol_map_NU (t : Table) (N : List String) (n : ℕ) (f : String)
    (hf : f ∈ N) (h : t.names = N ∧ t.Uniform n) (g : ℚ → ℚ) :
    (t.setCol f ((t.getCol f).map g)).names = N ∧
      (t.setCol f ((t.getCol f).map g)).Uniform n :=
  setCol_NU t N n f _ hf h.1 h.2
    (by rw [List.length_map]; exact getCol_length_NU f hf h.1 h.2)

theorem censusIntegerStep_NU (mu sigma : ℚ) (N : List String) (n : ℕ)
    (s : Table × RNG) (f : String) (hf : f ∈ N) (hN : s.1.names = N)
    (hu : s.1.Uniform n) :
    ((censusIntegerStep mu sigma s f).1).names = N ∧
      ((censusIntegerStep mu sigma s f).1).Uniform n := by
  have hcol : (s.1.getCol f).length = n := getCol_length_NU f hf hN hu
  simp only [censusIntegerStep]
  have h1 := setCol_NU s.1 N n f
    ((mapNoise (fun j d => ((pyRound (j + d) : ℤ) : ℚ)) mu sigma
      (s.1.getCol f) s.2).1) hf hN hu (by rw [mapNoise_length]; exact hcol)
  split
  · exact setCol_map_NU _ N n f hf h1 _
  · split
    · exact setCol_map_NU _ N n f hf (setCol_map_NU _ N n f hf h1 _) _
    · exact h1

theorem censusBinaryStep_NU (mu sigma : ℚ) (N : List String) (n : ℕ)
    (s : Table × RNG) (f : String) (hf : f ∈ N) (hN : s.1.names = N)
    (hu : s.1.Uniform n) :
    ((censusBinaryStep mu sigma s f).1).names = N ∧
      ((censusBinaryStep mu sigma s f).1).Uniform n := by
  have hcol : (s.1.getCol f).length = n := getCol_length_NU f hf hN hu
  simp only [censusBinaryStep]
  have h1 := setCol_NU s.1 N n f
    ((mapNoise (fun j d => ((pyRound (j + d) : ℤ) : ℚ)) mu sigma
      (s.1.getCol f) s.2).1) hf hN hu (by rw [mapNoise_length]; exact hcol)
  exact setCol_map_NU _ N n f hf (setCol_map_NU _ N n f hf h1 _) _

theorem add_noise_NU (mu sigma : ℚ) (N : List String) (n : ℕ)
    (t : Table) (r : RNG) (f : String) (hf : f ∈ N) (hN : t.names = N)
    (hu : t.Uniform n) :
    ((add_noise_to_ordinal_feature f t mu sigma r).1).names = N ∧
      ((add_noise_to_ordinal_feature f t mu sigma r).1).Uniform n := by
  have hcol : (t.getCol f).length = n := getCol_length_NU f hf hN hu
  simp only [add_noise_to_ordinal_feature]
  have h1 := setCol_NU t N n f
    ((mapNoise (fun j d => ((pyRound (j + d) : ℤ) : ℚ)) mu sigma
      (t.getCol f) r).1) hf hN hu (by rw [mapNoise_length]; exact hcol)
  exact setCol_map_NU _ N n f hf (setCol_map_NU _ N n f hf h1 _) _

theorem censusNominalStep_NU (E : Env) (mu sigma : ℚ) (seed : ℕ)
    (N : List String) (n : ℕ) (s : Table × RNG) (f : String)
    (hN : s.1.names = N) (hu : s.1.Uniform n) :
    ((censusNominalStep E mu sigma seed s f).1).names = N ∧
      ((censusNominalStep E mu sigma seed s f).1).Uniform n :=
  ⟨by rw [censusNominalStep_names]; exact hN,
    censusNominalStep_uniform E mu sigma seed s f n hu⟩

theorem integer_fold_NU (mu sigma : ℚ) (N : List String) (n : ℕ) :
    ∀ (fs : List String) (init : Table × RNG), (∀ f ∈ fs, f ∈ N) →
      init.1.names = N → init.1.Uniform n →
      (fs.foldl (censusIntegerStep mu sigma) init).1.names = N ∧
        (fs.foldl (censusIntegerStep mu sigma) init).1.Uniform n := by
  intro fs
  induction fs with
  | nil => intro init _ hN hu; exact ⟨hN, hu⟩
  | cons f fs ih =>
    intro init hm hN hu
    simp only [List.foldl_cons]
    have h1 := censusIntegerStep_NU mu sigma N n init f (hm f (by simp)) hN hu
    exact ih _ (fun g hg => hm g (List.mem_cons_of_mem _ hg)) h1.1 h1.2

theorem binary_fold_NU (mu sigma : ℚ) (N : List String) (n : ℕ) :
    ∀ (fs : List String) (init : Table × RNG), (∀ f ∈ fs, f ∈ N) →
      init.1.names = N → init.1.Uniform n →
      (fs.foldl (censusBinaryStep mu sigma) init).1.names = N ∧
        (fs.foldl (censusBinaryStep mu sigma) init).1.Uniform n := by
  intro fs
  induction fs with
  | nil => intro init _ hN hu; exact ⟨hN, hu⟩
  | cons f fs ih =>
    intro init hm hN hu
    simp only [List.foldl_cons]
    have h1 := censusBinaryStep_NU mu sigma N n init f (hm f (by simp)) hN hu
    exact ih _ (fun g hg => hm g (List.mem_cons_of_mem _ hg)) h1.1 h1.2

theorem ordinal_fold_NU (mu sigma : ℚ) (N : List String) (n : ℕ) :
    ∀ (fs : List String) (init : Table × RNG), (∀ f ∈ fs, f ∈ N) →
      init.1.names = N → init.1.Uniform n →
      (fs.foldl (fun s f => add_noise_to_ordinal_feature f s.1 mu sigma s.2)
        init).1.names = N ∧
        (fs.foldl (fun s f => add_noise_to_ordinal_feature f s.1 mu sigma s.2)
          init).1.Uniform n := by
  intro fs
  induction fs with
  | nil => intro init _ hN hu; exact ⟨hN, hu⟩
  | cons f fs ih =>
    intro init hm hN hu
    simp only [List.foldl_cons]
    have h1 := add_noise_NU mu sigma N n init.1 init.2 f (hm f (by simp)) hN hu
    exact ih _ (fun g hg => hm g (List.mem_cons_of_mem _ hg)) h1.1 h1.2

/-- One-hot blocks through the census nominal fold: once the step for feature
`f` has run, later nominal features leave its block untouched. -/
theorem nominal_fold_block_onehot (E : Env) (mu sigma : ℚ) (seed : ℕ)
    (N : List String) (n : ℕ) (f : String) (hndN : N.Nodup) :
    ∀ (fs : List String) (init : Table × RNG),
      init.1.names = N → init.1.Uniform n → f ∈ fs → fs.Nodup →
      (∀ g ∈ fs, g ≠ f → ∀ c ∈ N,
        ¬(c.startsWith f = true ∧ c.startsWith g = true)) →
      N.filter (fun c => c.startsWith f) ≠ [] →
      ∀ r, r < n →
      ∃! k : Fin (N.filter (fun c => c.startsWith f)).length,
        (((fs.foldl (censusNominalStep E mu sigma seed) init).1).getCol
          ((N.filter (fun c => c.startsWith f)).get k)).getD r 0 = 1 := by
  intro fs
  induction fs with
  | nil => intro init _ _ hf; simp at hf
  | cons g gs ih =>
    intro init hN hu hf hnd hdisj hne r hr
    simp only [List.foldl_cons]
    by_cases hgf : g = f
    · subst hgf
      have hest := censusNominalStep_onehot E mu sigma seed init g n
        (by rw [hN]; exact hndN) hu (by rw [hN]; exact hne) r hr
      rw [hN] at hest
      have hpres : ∀ c ∈ N.filter (fun c => c.startsWith g),
          ((gs.foldl (censusNominalStep E mu sigma seed)
            (censusNominalStep E mu sigma seed init g)).1).getCol c =
          ((censusNominalStep E mu sigma seed init g).1).getCol c := by
        intro c hc
        apply nominal_fold_getCol_ne
        intro g2 hg2
        have hg2f : g2 ≠ g := fun he => (List.nodup_cons.mp hnd).1 (he ▸ hg2)
        have hdis := hdisj g2 (List.mem_cons_of_mem _ hg2) hg2f c
          (List.mem_filter.mp hc).1
        rcases Bool.eq_false_or_eq_true (c.startsWith g2) with h2 | h2
        · exact absurd ⟨(List.mem_filter.mp hc).2, h2⟩ hdis
        · exact h2
      have hgm : ∀ k : Fin (N.filter (fun c => c.startsWith g)).length,
          (N.filter (fun c => c.startsWith g)).get k ∈
            N.filter (fun c => c.startsWith g) := by
        intro k
        have h0 := List.get_mem (N.filter (fun c => c.startsWith g)) k.1 k.2
        simpa using h0
      rcases hest with ⟨k0, hk0, huniq⟩
      refine ⟨k0, ?_, ?_⟩
      · exact (congrArg (fun col => col.getD r 0) (hpres _ (hgm k0))).trans hk0
      · intro y hy
        apply huniq
        exact (congrArg (fun col => col.getD r 0) (hpres _ (hgm y))).symm.trans hy
    · have hfgs : f ∈ gs := by
        rcases List.mem_cons.mp hf with h | h
        · exact absurd h.symm hgf
        · exact h
      have hNU := censusNominalStep_NU E mu sigma seed N n init g hN hu
      exact ih _ hNU.1 hNU.2 hfgs (List.nodup_cons.mp hnd).2
        (fun g2 hg2 => hdisj g2 (List.mem_cons_of_mem _ hg2)) hne r hr

theorem spliceCell_eval (mu sigma target : ℚ) (col : List ℚ) (r0 : RNG)
    (rr : ℕ) (hrr : rr < col.length) :
    (∃ m : Fin 4, col.getD rr 0 = 1 ∧
      (((spliceNoiseCol mu sigma target col r0).1.map spliceClampHi).map
        spliceClampLo).getD rr none = some ((m : ℕ) : ℚ)) ∨
    (col.getD rr 0 ≠ 1 ∧
      (((spliceNoiseCol mu sigma target col r0).1.map spliceClampHi).map
        spliceClampLo).getD rr none = none) := by
  have hlen : (spliceNoiseCol mu sigma target col r0).1.length = col.length :=
    spliceNoiseCol_length mu sigma target col r0
  rcases spliceNoiseCol_getD mu sigma target col r0 rr hrr with ⟨w, hw⟩
  rw [List.getD_map_of_lt _ _ rr (by rw [List.length_map, hlen]; exact hrr)
      none none,
    List.getD_map_of_lt _ _ rr (by rw [hlen]; exact hrr) none none, hw]
  by_cases h1 : col.getD rr 0 = 1
  · rw [if_pos h1]
    rcases splice_clamp_fin (pyRound (target + w)) with ⟨m, hm⟩
    exact Or.inl ⟨m, h1, hm⟩
  · rw [if_neg h1]
    exact Or.inr ⟨h1, rfl⟩

theorem cast_eq_symm_iff (P : Equiv.Perm (Fin 4)) (m a : Fin 4) :
    (((m : ℕ) : ℚ) = (((P.symm a : Fin 4) : ℕ) : ℚ)) ↔ a = P m := by
  rw [Nat.cast_inj]
  constructor
  · intro h
    have hfin : m = P.symm a := Fin.val_injective h
    rw [hfin, Equiv.apply_symm_apply]
  · intro h
    rw [h, Equiv.symm_apply_apply]

theorem ite_one_eq_one_iff (c : Prop) [Decidable c] :
    ((if c then (1 : ℚ) else 0) = 1) ↔ c := by
  by_cases h : c <;> simp [h]

theorem spliceCol_len (mu sigma target : ℚ) (col : List ℚ) (r : RNG) (n : ℕ)
    (h : col.length = n) :
    (((spliceNoiseCol mu sigma target col r).1.map spliceClampHi).map
      spliceClampLo).length = n := by
  simp only [List.length_map]
  rw [spliceNoiseCol_length]
  exact h

theorem spliceGroup_getCol_ne (mu sigma : ℚ) (bm : Fin 4 → ℚ)
    (c0 c1 c2 c3 : String) (t : Table) (r : RNG) (c : String)
    (h0 : c ≠ c0) (h1 : c ≠ c1) (h2 : c ≠ c2) (h3 : c ≠ c3) :
    ((spliceGroup mu sigma bm c0 c1 c2 c3 t r).1).getCol c = t.getCol c := by
  simp only [spliceGroup]
  rw [Table.getCol_setCol_ne _ _ _ _ (Ne.symm h3),
    Table.getCol_setCol_ne _ _ _ _ (Ne.symm h2),
    Table.getCol_setCol_ne _ _ _ _ (Ne.symm h1),
    Table.getCol_setCol_ne _ _ _ _ (Ne.symm h0)]


theorem spliceGroup_getCol0 (mu sigma : ℚ) (bm : Fin 4 → ℚ)
    (c0 c1 c2 c3 : String) (t : Table) (r : RNG)
    (h01 : c0 ≠ c1) (h02 : c0 ≠ c2) (h03 : c0 ≠ c3) :
    ((spliceGroup mu sigma bm c0 c1 c2 c3 t r).1).getCol c0 =
      zip4With (fun a b c d =>
        if a = some (bm 0) ∨ b = some (bm 0) ∨ c = some (bm 0) ∨ d = some (bm 0)
        then 1 else 0)
        (((spliceNoiseCol mu sigma (bm 0) (t.getCol c0) r).1.map
          spliceClampHi).map spliceClampLo)
        (((spliceNoiseCol mu sigma (bm 1) (t.getCol c1)
          (spliceNoiseCol mu sigma (bm 0) (t.getCol c0) r).2).1.map
          spliceClampHi).map spliceClampLo)
        (((spliceNoiseCol mu sigma (bm 2) (t.getCol c2)
          (spliceNoiseCol mu sigma (bm 1) (t.getCol c1)
            (spliceNoiseCol mu sigma (bm 0) (t.getCol c0) r).2).2).1.map
          spliceClampHi).map spliceClampLo)
        (((spliceNoiseCol mu sigma (bm 3) (t.getCol c3)
          (spliceNoiseCol mu sigma (bm 2) (t.getCol c2)
            (spliceNoiseCol mu sigma (bm 1) (t.getCol c1)
              (spliceNoiseCol mu sigma (bm 0) (t.getCol c0) r).2).2).2).1.map
          spliceClampHi).map spliceClampLo) := by
  simp only [spliceGroup]
  rw [Table.getCol_setCol_ne _ _ _ _ (Ne.symm h03),
    Table.getCol_setCol_ne _ _ _ _ (Ne.symm h02),
    Table.getCol_setCol_ne _ _ _ _ (Ne.symm h01),
    Table.getCol_setCol_self]

theorem spliceGroup_getCol1 (mu sigma : ℚ) (bm : Fin 4 → ℚ)
    (c0 c1 c2 c3 : String) (t : Table) (r : RNG)
    (h12 : c1 ≠ c2) (h13 : c1 ≠ c3) :
    ((spliceGroup mu sigma bm c0 c1 c2 c3 t r).1).getCol c1 =
      zip4With (fun a b c d =>
        if a = some (bm 1) ∨ b = some (bm 1) ∨ c = some (bm 1) ∨ d = some (bm 1)
        then 1 else 0)
        (((spliceNoiseCol mu sigma (bm 0) (t.getCol c0) r).1.map
          spliceClampHi).map spliceClampLo)
        (((spliceNoiseCol mu sigma (bm 1) (t.getCol c1)
          (spliceNoiseCol mu sigma (bm 0) (t.getCol c0) r).2).1.map
          spliceClampHi).map spliceClampLo)
        (((spliceNoiseCol mu sigma (bm 2) (t.getCol c2)
          (spliceNoiseCol mu sigma (bm 1) (t.getCol c1)
            (spliceNoiseCol mu sigma (bm 0) (t.getCol c0) r).2).2).1.map
          spliceClampHi).map spliceClampLo)
        (((spliceNoiseCol mu sigma (bm 3) (t.getCol c3)
          (spliceNoiseCol mu sigma (bm 2) (t.getCol c2)
            (spliceNoiseCol mu sigma (bm 1) (t.getCol c1)
              (spliceNoiseCol mu sigma (bm 0) (t.getCol c0) r).2).2).2).1.map
          spliceClampHi).map spliceClampLo) := by
  simp only [spliceGroup]
  rw [Table.getCol_setCol_ne _ _ _ _ (Ne.symm h13),
    Table.getCol_setCol_ne _ _ _ _ (Ne.symm h12),
    Table.getCol_setCol_self]

theorem spliceGroup_getCol2 (mu sigma : ℚ) (bm : Fin 4 → ℚ)
    (c0 c1 c2 c3 : String) (t : Table) (r : RNG) (h23 : c2 ≠ c3) :
    ((spliceGroup mu sigma bm c0 c1 c2 c3 t r).1).getCol c2 =
      zip4With (fun a b c d =>
        if a = some (bm 2) ∨ b = some (bm 2) ∨ c = some (bm 2) ∨ d = some (bm 2)
        then 1 else 0)
        (((spliceNoiseCol mu sigma (bm 0) (t.getCol c0) r).1.map
          spliceClampHi).map spliceClampLo)
        (((spliceNoiseCol mu sigma (bm 1) (t.getCol c1)
          (spliceNoiseCol mu sigma (bm 0) (t.getCol c0) r).2).1.map
          spliceClampHi).map spliceClampLo)
        (((spliceNoiseCol mu sigma (bm 2) (t.getCol c2)
          (spliceNoiseCol mu sigma (bm 1) (t.getCol c1)
            (spliceNoiseCol mu sigma (bm 0) (t.getCol c0) r).2).2).1.map
          spliceClampHi).map spliceClampLo)
        (((spliceNoiseCol mu sigma (bm 3) (t.getCol c3)
          (spliceNoiseCol mu sigma (bm 2) (t.getCol c2)
            (spliceNoiseCol mu sigma (bm 1) (t.getCol c1)
              (spliceNoiseCol mu sigma (bm 0) (t.getCol c0) r).2).2).2).1.map
          spliceClampHi).map spliceClampLo) := by
  simp only [spliceGroup]
  rw [Table.getCol_setCol_ne _ _ _ _ (Ne.symm h23),
    Table.getCol_setCol_self]

theorem spliceGroup_getCol3 (mu sigma : ℚ) (bm : Fin 4 → ℚ)
    (c0 c1 c2 c3 : String) (t : Table) (r : RNG) :
    ((spliceGroup mu sigma bm c0 c1 c2 c3 t r).1).getCol c3 =
      zip4With (fun a b c d =>
        if a = some (bm 3) ∨ b = some (bm 3) ∨ c = some (bm 3) ∨ d = some (bm 3)
        then 1 else 0)
        (((spliceNoiseCol mu sigma (bm 0) (t.getCol c0) r).1.map
          spliceClampHi).map spliceClampLo)
        (((spliceNoiseCol mu sigma (bm 1) (t.getCol c1)
          (spliceNoiseCol mu sigma (bm 0) (t.getCol c0) r).2).1.map
          spliceClampHi).map spliceClampLo)
        (((spliceNoiseCol mu sigma (bm 2) (t.getCol c2)
          (spliceNoiseCol mu sigma (bm 1) (t.getCol c1)
            (spliceNoiseCol mu sigma (bm 0) (t.getCol c0) r).2).2).1.map
          spliceClampHi).map spliceClampLo)
        (((spliceNoiseCol mu sigma (bm 3) (t.getCol c3)
          (spliceNoiseCol mu sigma (bm 2) (t.getCol c2)
            (spliceNoiseCol mu sigma (bm 1) (t.getCol c1)
              (spliceNoiseCol mu sigma (bm 0) (t.getCol c0) r).2).2).2).1.map
          spliceClampHi).map spliceClampLo) := by
  simp only [spliceGroup]
  rw [Table.getCol_setCol_self]

theorem setCol4_NU (t : Table) (N : List String) (n : ℕ)
    (c0 c1 c2 c3 : String) (v0 v1 v2 v3 : List ℚ)
    (hc0 : c0 ∈ N) (hc1 : c1 ∈ N) (hc2 : c2 ∈ N) (hc3 : c3 ∈ N)
    (hN : t.names = N) (hu : t.Uniform n)
    (h0 : v0.length = n) (h1 : v1.length = n) (h2 : v2.length = n)
    (h3 : v3.length = n) :
    ((((t.setCol c0 v0).setCol c1 v1).setCol c2 v2).setCol c3 v3).names = N ∧
      ((((t.setCol c0 v0).setCol c1 v1).setCol c2 v2).setCol c3 v3).Uniform n := by
  have s0 := setCol_NU t N n c0 v0 hc0 hN hu h0
  have s1 := setCol_NU _ N n c1 v1 hc1 s0.1 s0.2 h1
  have s2 := setCol_NU _ N n c2 v2 hc2 s1.1 s1.2 h2
  exact setCol_NU _ N n c3 v3 hc3 s2.1 s2.2 h3

theorem spliceGroup_NU (mu sigma : ℚ) (bm : Fin 4 → ℚ)
    (c0 c1 c2 c3 : String) (t : Table) (r : RNG) (N : List String) (n : ℕ)
    (hN : t.names = N) (hu : t.Uniform n)
    (hc0 : c0 ∈ N) (hc1 : c1 ∈ N) (hc2 : c2 ∈ N) (hc3 : c3 ∈ N) :
    ((spliceGroup mu sigma bm c0 c1 c2 c3 t r).1).names = N ∧
      ((spliceGroup mu sigma bm c0 c1 c2 c3 t r).1).Uniform n := by
  have hL0 : (t.getCol c0).length = n := getCol_length_NU c0 hc0 hN hu
  have hL1 : (t.getCol c1).length = n := getCol_length_NU c1 hc1 hN hu
  have hL2 : (t.getCol c2).length = n := getCol_length_NU c2 hc2 hN hu
  have hL3 : (t.getCol c3).length = n := getCol_length_NU c3 hc3 hN hu
  simp only [spliceGroup]
  exact setCol4_NU t N n c0 c1 c2 c3 _ _ _ _ hc0 hc1 hc2 hc3 hN hu
    (zip4With_length _ _ _ _ _ n (spliceCol_len _ _ _ _ _ n hL0)
      (spliceCol_len _ _ _ _ _ n hL1) (spliceCol_len _ _ _ _ _ n hL2)
      (spliceCol_len _ _ _ _ _ n hL3))
    (zip4With_length _ _ _ _ _ n (spliceCol_len _ _ _ _ _ n hL0)
      (spliceCol_len _ _ _ _ _ n hL1) (spliceCol_len _ _ _ _ _ n hL2)
      (spliceCol_len _ _ _ _ _ n hL3))
    (zip4With_length _ _ _ _ _ n (spliceCol_len _ _ _ _ _ n hL0)
      (spliceCol_len _ _ _ _ _ n hL1) (spliceCol_len _ _ _ _ _ n hL2)
      (spliceCol_len _ _ _ _ _ n hL3))
    (zip4With_length _ _ _ _ _ n (spliceCol_len _ _ _ _ _ n hL0)
      (spliceCol_len _ _ _ _ _ n hL1) (spliceCol_len _ _ _ _ _ n hL2)
      (spliceCol_len _ _ _ _ _ n hL3))

theorem splice_cells_iff (P : Equiv.Perm (Fin 4)) (bm : Fin 4 → ℚ)
    (hbm : ∀ j, bm j = (((P.symm j : Fin 4) : ℕ) : ℚ))
    (z0 z1 z2 z3 : Option ℚ) (m : Fin 4) (a0 : Fin 4)
    (h0 : z0 = if a0 = 0 then some ((m : ℕ) : ℚ) else none)
    (h1 : z1 = if a0 = 1 then some ((m : ℕ) : ℚ) else none)
    (h2 : z2 = if a0 = 2 then some ((m : ℕ) : ℚ) else none)
    (h3 : z3 = if a0 = 3 then some ((m : ℕ) : ℚ) else none)
    (a : Fin 4) :
    ((if z0 = some (bm a) ∨ z1 = some (bm a) ∨ z2 = some (bm a) ∨
        z3 = some (bm a) then (1 : ℚ) else 0) = 1) ↔ a = P m := by
  rw [ite_one_eq_one_iff]
  constructor
  · intro hd
    rcases hd with h | h | h | h
    · rw [h0] at h
      by_cases ha0 : a0 = 0
      · rw [if_pos ha0, hbm] at h
        exact (cast_eq_symm_iff P m a).mp (Option.some.inj h)
      · rw [if_neg ha0] at h
        exact absurd h (by simp)
    · rw [h1] at h
      by_cases ha0 : a0 = 1
      · rw [if_pos ha0, hbm] at h
        exact (cast_eq_symm_iff P m a).mp (Option.some.inj h)
      · rw [if_neg ha0] at h
        exact absurd h (by simp)
    · rw [h2] at h
      by_cases ha0 : a0 = 2
      · rw [if_pos ha0, hbm] at h
        exact (cast_eq_symm_iff P m a).mp (Option.some.inj h)
      · rw [if_neg ha0] at h
        exact absurd h (by simp)
    · rw [h3] at h
      by_cases ha0 : a0 = 3
      · rw [if_pos ha0, hbm] at h
        exact (cast_eq_symm_iff P m a).mp (Option.some.inj h)
      · rw [if_neg ha0] at h
        exact absurd h (by simp)
  · intro ha
    have hc : ((m : ℕ) : ℚ) = bm a := by
      rw [hbm]
      exact (cast_eq_symm_iff P m a).mpr ha
    have h4 : a0 = 0 ∨ a0 = 1 ∨ a0 = 2 ∨ a0 = 3 := by fin_cases a0 <;> decide
    rcases h4 with h | h | h | h
    · exact Or.inl (h0.trans ((if_pos h).trans (congrArg some hc)))
    · exact Or.inr (Or.inl (h1.trans ((if_pos h).trans (congrArg some hc))))
    · exact Or.inr (Or.inr (Or.inl
        (h2.trans ((if_pos h).trans (congrArg some hc)))))
    · exact Or.inr (Or.inr (Or.inr
        (h3.trans ((if_pos h).trans (congrArg some hc)))))

theorem spliceGroup_col_iff (mu sigma : ℚ) (P : Equiv.Perm (Fin 4))
    (bm : Fin 4 → ℚ) (hbm : ∀ j, bm j = (((P.symm j : Fin 4) : ℕ) : ℚ))
    (c0 c1 c2 c3 : String) (t : Table) (r0 : RNG) (n : ℕ)
    (h01 : c0 ≠ c1) (h02 : c0 ≠ c2) (h03 : c0 ≠ c3) (h12 : c1 ≠ c2)
    (h13 : c1 ≠ c3) (h23 : c2 ≠ c3)
    (hl0 : (t.getCol c0).length = n) (hl1 : (t.getCol c1).length = n)
    (hl2 : (t.getCol c2).length = n) (hl3 : (t.getCol c3).length = n)
    (rr : ℕ) (hrr : rr < n) (m : Fin 4) (a0 : Fin 4)
    (H0 : (((spliceNoiseCol mu sigma (bm 0) (t.getCol c0) r0).1.map
        spliceClampHi).map spliceClampLo).getD rr none =
      if a0 = 0 then some ((m : ℕ) : ℚ) else none)
    (H1 : (((spliceNoiseCol mu sigma (bm 1) (t.getCol c1)
        (spliceNoiseCol mu sigma (bm 0) (t.getCol c0) r0).2).1.map
        spliceClampHi).map spliceClampLo).getD rr none =
      if a0 = 1 then some ((m : ℕ) : ℚ) else none)
    (H2 : (((spliceNoiseCol mu sigma (bm 2) (t.getCol c2)
        (spliceNoiseCol mu sigma (bm 1) (t.getCol c1)
          (spliceNoiseCol mu sigma (bm 0) (t.getCol c0) r0).2).2).1.map
        spliceClampHi).map spliceClampLo).getD rr none =
      if a0 = 2 then some ((m : ℕ) : ℚ) else none)
    (H3 : (((spliceNoiseCol mu sigma (bm 3) (t.getCol c3)
        (spliceNoiseCol mu sigma (bm 2) (t.getCol c2)
          (spliceNoiseCol mu sigma (bm 1) (t.getCol c1)
            (spliceNoiseCol mu sigma (bm 0) (t.getCol c0) r0).2).2).2).1.map
        spliceClampHi).map spliceClampLo).getD rr none =
      if a0 = 3 then some ((m : ℕ) : ℚ) else none)
    (a : Fin 4) :
    ((((spliceGroup mu sigma bm c0 c1 c2 c3 t r0).1).getCol
      (![c0, c1, c2, c3] a)).getD rr 0 = 1) ↔ a = P m := by
  fin_cases a
  · have h : (((spliceGroup mu sigma bm c0 c1 c2 c3 t r0).1).getCol c0).getD
        rr 0 = 1 ↔ (0 : Fin 4) = P m := by
      rw [spliceGroup_getCol0 mu sigma bm c0 c1 c2 c3 t r0 h01 h02 h03,
        zip4With_getD _ _ _ _ _ rr]
      · exact splice_cells_iff P bm hbm _ _ _ _ m a0 H0 H1 H2 H3 0
      · rw [spliceCol_len mu sigma (bm 0) (t.getCol c0) r0 n hl0]; exact hrr
      · rw [spliceCol_len mu sigma (bm 1) (t.getCol c1) _ n hl1]; exact hrr
      · rw [spliceCol_len mu sigma (bm 2) (t.getCol c2) _ n hl2]; exact hrr
      · rw [spliceCol_len mu sigma (bm 3) (t.getCol c3) _ n hl3]; exact hrr
    exact h
  · have h : (((spliceGroup mu sigma bm c0 c1 c2 c3 t r0).1).getCol c1).getD
        rr 0 = 1 ↔ (1 : Fin 4) = P m := by
      rw [spliceGroup_getCol1 mu sigma bm c0 c1 c2 c3 t r0 h12 h13,
        zip4With_getD _ _ _ _ _ rr]
      · exact splice_cells_iff P bm hbm _ _ _ _ m a0 H0 H1 H2 H3 1
      · rw [spliceCol_len mu sigma (bm 0) (t.getCol c0) r0 n hl0]; exact hrr
      · rw [spliceCol_len mu sigma (bm 1) (t.getCol c1) _ n hl1]; exact hrr
      · rw [spliceCol_len mu sigma (bm 2) (t.getCol c2) _ n hl2]; exact hrr
      · rw [spliceCol_len mu sigma (bm 3) (t.getCol c3) _ n hl3]; exact hrr
    exact h
  · have h : (((spliceGroup mu sigma bm c0 c1 c2 c3 t r0).1).getCol c2).getD
        rr 0 = 1 ↔ (2 : Fin 4) = P m := by
      rw [spliceGroup_getCol2 mu sigma bm c0 c1 c2 c3 t r0 h23,
        zip4With_getD _ _ _ _ _ rr]
      · exact splice_cells_iff P bm hbm _ _ _ _ m a0 H0 H1 H2 H3 2
      · rw [spliceCol_len mu sigma (bm 0) (t.getCol c0) r0 n hl0]; exact hrr
      · rw [spliceCol_len mu sigma (bm 1) (t.getCol c1) _ n hl1]; exact hrr
      · rw [spliceCol_len mu sigma (bm 2) (t.getCol c2) _ n hl2]; exact hrr
      · rw [spliceCol_len mu sigma (bm 3) (t.getCol c3) _ n hl3]; exact hrr
    exact h
  · have h : (((spliceGroup mu sigma bm c0 c1 c2 c3 t r0).1).getCol c3).getD
        rr 0 = 1 ↔ (3 : Fin 4) = P m := by
      rw [spliceGroup_getCol3 mu sigma bm c0 c1 c2 c3 t r0,
        zip4With_getD _ _ _ _ _ rr]
      · exact splice_cells_iff P bm hbm _ _ _ _ m a0 H0 H1 H2 H3 3
      · rw [spliceCol_len mu sigma (bm 0) (t.getCol c0) r0 n hl0]; exact hrr
      · rw [spliceCol_len mu sigma (bm 1) (t.getCol c1) _ n hl1]; exact hrr
      · rw [spliceCol_len mu sigma (bm 2) (t.getCol c2) _ n hl2]; exact hrr
      · rw [spliceCol_len mu sigma (bm 3) (t.getCol c3) _ n hl3]; exact hrr
    exact h

theorem spliceGroup_onehot (mu sigma : ℚ) (P : Equiv.Perm (Fin 4))
    (bm : Fin 4 → ℚ) (hbm : ∀ j, bm j = (((P.symm j : Fin 4) : ℕ) : ℚ))
    (c0 c1 c2 c3 : String) (t : Table) (r0 : RNG) (n : ℕ)
    (h01 : c0 ≠ c1) (h02 : c0 ≠ c2) (h03 : c0 ≠ c3) (h12 : c1 ≠ c2)
    (h13 : c1 ≠ c3) (h23 : c2 ≠ c3)
    (hl0 : (t.getCol c0).length = n) (hl1 : (t.getCol c1).length = n)
    (hl2 : (t.getCol c2).length = n) (hl3 : (t.getCol c3).length = n)
    (rr : ℕ) (hrr : rr < n)
    (hone : ∃! a : Fin 4, (t.getCol (![c0, c1, c2, c3] a)).getD rr 0 = 1) :
    ∃! a : Fin 4,
      (((spliceGroup mu sigma bm c0 c1 c2 c3 t r0).1).getCol
        (![c0, c1, c2, c3] a)).getD rr 0 = 1 := by
  rcases hone with ⟨a0, ha0, hun⟩
  have hc0 := spliceCell_eval mu sigma (bm 0) (t.getCol c0) r0 rr
    (by rw [hl0]; exact hrr)
  have hc1 := spliceCell_eval mu sigma (bm 1) (t.getCol c1)
    (spliceNoiseCol mu sigma (bm 0) (t.getCol c0) r0).2 rr
    (by rw [hl1]; exact hrr)
  have hc2 := spliceCell_eval mu sigma (bm 2) (t.getCol c2)
    (spliceNoiseCol mu sigma (bm 1) (t.getCol c1)
      (spliceNoiseCol mu sigma (bm 0) (t.getCol c0) r0).2).2 rr
    (by rw [hl2]; exact hrr)
  have hc3 := spliceCell_eval mu sigma (bm 3) (t.getCol c3)
    (spliceNoiseCol mu sigma (bm 2) (t.getCol c2)
      (spliceNoiseCol mu sigma (bm 1) (t.getCol c1)
        (spliceNoiseCol mu sigma (bm 0) (t.getCol c0) r0).2).2).2 rr
    (by rw [hl3]; exact hrr)
  fin_cases a0
  · have hv0 : (t.getCol c0).getD rr 0 = 1 := ha0
    have hv1 : ¬(t.getCol c1).getD rr 0 = 1 := fun h => absurd (hun 1 h) (by decide)
    have hv2 : ¬(t.getCol c2).getD rr 0 = 1 := fun h => absurd (hun 2 h) (by decide)
    have hv3 : ¬(t.getCol c3).getD rr 0 = 1 := fun h => absurd (hun 3 h) (by decide)
    rcases hc0.resolve_right (fun hcon => hcon.1 hv0) with ⟨m, _, hm0⟩
    have hm1 := (hc1.resolve_left (by rintro ⟨m2, hx, _⟩; exact hv1 hx)).2
    have hm2 := (hc2.resolve_left (by rintro ⟨m2, hx, _⟩; exact hv2 hx)).2
    have hm3 := (hc3.resolve_left (by rintro ⟨m2, hx, _⟩; exact hv3 hx)).2
    have hiff := spliceGroup_col_iff mu sigma P bm hbm c0 c1 c2 c3 t r0 n
      h01 h02 h03 h12 h13 h23 hl0 hl1 hl2 hl3 rr hrr m 0
      (hm0.trans (if_pos rfl).symm) (hm1.trans (if_neg (by decide)).symm)
      (hm2.trans (if_neg (by decide)).symm) (hm3.trans (if_neg (by decide)).symm)
    exact ⟨P m, (hiff (P m)).mpr rfl, fun y hy => (hiff y).mp hy⟩
  · have hv1 : (t.getCol c1).getD rr 0 = 1 := ha0
    have hv0 : ¬(t.getCol c0).getD rr 0 = 1 := fun h => absurd (hun 0 h) (by decide)
    have hv2 : ¬(t.getCol c2).getD rr 0 = 1 := fun h => absurd (hun 2 h) (by decide)
    have hv3 : ¬(t.getCol c3).getD rr 0 = 1 := fun h => absurd (hun 3 h) (by decide)
    rcases hc1.resolve_right (fun hcon => hcon.1 hv1) with ⟨m, _, hm1⟩
    have hm0 := (hc0.resolve_left (by rintro ⟨m2, hx, _⟩; exact hv0 hx)).2
    have hm2 := (hc2.resolve_left (by rintro ⟨m2, hx, _⟩; exact hv2 hx)).2
    have hm3 := (hc3.resolve_left (by rintro ⟨m2, hx, _⟩; exact hv3 hx)).2
    have hiff := spliceGroup_col_iff mu sigma P bm hbm c0 c1 c2 c3 t r0 n
      h01 h02 h03 h12 h13 h23 hl0 hl1 hl2 hl3 rr hrr m 1
      (hm0.trans (if_neg (by decide)).symm) (hm1.trans (if_pos rfl).symm)
      (hm2.trans (if_neg (by decide)).symm) (hm3.trans (if_neg (by decide)).symm)
    exact ⟨P m, (hiff (P m)).mpr rfl, fun y hy => (hiff y).mp hy⟩
  · have hv2 : (t.getCol c2).getD rr 0 = 1 := ha0
    have hv0 : ¬(t.getCol c0).getD rr 0 = 1 := fun h => absurd (hun 0 h) (by decide)
    have hv1 : ¬(t.getCol c1).getD rr 0 = 1 := fun h => absurd (hun 1 h) (by decide)
    have hv3 : ¬(t.getCol c3).getD rr 0 = 1 := fun h => absurd (hun 3 h) (by decide)
    rcases hc2.resolve_right (fun hcon => hcon.1 hv2) with ⟨m, _, hm2⟩
    have hm0 := (hc0.resolve_left (by rintro ⟨m2, hx, _⟩; exact hv0 hx)).2
    have hm1 := (hc1.resolve_left (by rintro ⟨m2, hx, _⟩; exact hv1 hx)).2
    have hm3 := (hc3.resolve_left (by rintro ⟨m2, hx, _⟩; exact hv3 hx)).2
    have hiff := spliceGroup_col_iff mu sigma P bm hbm c0 c1 c2 c3 t r0 n
      h01 h02 h03 h12 h13 h23 hl0 hl1 hl2 hl3 rr hrr m 2
      (hm0.trans (if_neg (by decide)).symm) (hm1.trans (if_neg (by decide)).symm)
      (hm2.trans (if_pos rfl).symm) (hm3.trans (if_neg (by decide)).symm)
    exact ⟨P m, (hiff (P m)).mpr rfl, fun y hy => (hiff y).mp hy⟩
  · have hv3 : (t.getCol c3).getD rr 0 = 1 := ha0
    have hv0 : ¬(t.getCol c0).getD rr 0 = 1 := fun h => absurd (hun 0 h) (by decide)
    have hv1 : ¬(t.getCol c1).getD rr 0 = 1 := fun h => absurd (hun 1 h) (by decide)
    have hv2 : ¬(t.getCol c2).getD rr 0 = 1 := fun h => absurd (hun 2 h) (by decide)
    rcases hc3.resolve_right (fun hcon => hcon.1 hv3) with ⟨m, _, hm3⟩
    have hm0 := (hc0.resolve_left (by rintro ⟨m2, hx, _⟩; exact hv0 hx)).2
    have hm1 := (hc1.resolve_left (by rintro ⟨m2, hx, _⟩; exact hv1 hx)).2
    have hm2 := (hc2.resolve_left (by rintro ⟨m2, hx, _⟩; exact hv2 hx)).2
    have hiff := spliceGroup_col_iff mu sigma P bm hbm c0 c1 c2 c3 t r0 n
      h01 h02 h03 h12 h13 h23 hl0 hl1 hl2 hl3 rr hrr m 3
      (hm0.trans (if_neg (by decide)).symm) (hm1.trans (if_neg (by decide)).symm)
      (hm2.trans (if_neg (by decide)).symm) (hm3.trans (if_pos rfl).symm)
    exact ⟨P m, (hiff (P m)).mpr rfl, fun y hy => (hiff y).mp hy⟩

theorem splice_fold_getCol_ne (mu sigma : ℚ) (bm : Fin 4 → ℚ)
    (ns : List String) (c : String) :
    ∀ (is : List ℕ) (init : Table × RNG),
      (∀ i ∈ is, c ≠ ns.getD (4 * i) "" ∧ c ≠ ns.getD (4 * i + 1) "" ∧
        c ≠ ns.getD (4 * i + 2) "" ∧ c ≠ ns.getD (4 * i + 3) "") →
      ((is.foldl (fun s i => spliceGroup mu sigma bm (ns.getD (4 * i) "")
        (ns.getD (4 * i + 1) "") (ns.getD (4 * i + 2) "")
        (ns.getD (4 * i + 3) "") s.1 s.2) init).1).getCol c =
        init.1.getCol c := by
  intro is
  induction is with
  | nil => intro init _; rfl
  | cons i is ih =>
    intro init hc
    simp only [List.foldl_cons]
    rw [ih _ (fun j hj => hc j (List.mem_cons_of_mem _ hj))]
    have h := hc i (by simp)
    exact spliceGroup_getCol_ne mu sigma bm _ _ _ _ init.1 init.2 c
      h.1 h.2.1 h.2.2.1 h.2.2.2

theorem splice_fold_NU (mu sigma : ℚ) (bm : Fin 4 → ℚ) (ns : List String)
    (N : List String) (n : ℕ) :
    ∀ (is : List ℕ) (init : Table × RNG),
      (∀ i ∈ is, ns.getD (4 * i) "" ∈ N ∧ ns.getD (4 * i + 1) "" ∈ N ∧
        ns.getD (4 * i + 2) "" ∈ N ∧ ns.getD (4 * i + 3) "" ∈ N) →
      init.1.names = N → init.1.Uniform n →
      ((is.foldl (fun s i => spliceGroup mu sigma bm (ns.getD (4 * i) "")
        (ns.getD (4 * i + 1) "") (ns.getD (4 * i + 2) "")
        (ns.getD (4 * i + 3) "") s.1 s.2) init).1).names = N ∧
        ((is.foldl (fun s i => spliceGroup mu sigma bm (ns.getD (4 * i) "")
          (ns.getD (4 * i + 1) "") (ns.getD (4 * i + 2) "")
          (ns.getD (4 * i + 3) "") s.1 s.2) init).1).Uniform n := by
  intro is
  induction is with
  | nil => intro init _ hN hu; exact ⟨hN, hu⟩
  | cons i is ih =>
    intro init hm hN hu
    simp only [List.foldl_cons]
    have h := hm i (by simp)
    have h1 := spliceGroup_NU mu sigma bm _ _ _ _ init.1 init.2 N n hN hu
      h.1 h.2.1 h.2.2.1 h.2.2.2
    exact ih _ (fun j hj => hm j (List.mem_cons_of_mem _ hj)) h1.1 h1.2

theorem splice_fold_block_onehot (mu sigma : ℚ) (P : Equiv.Perm (Fin 4))
    (bm : Fin 4 → ℚ) (hbm : ∀ j, bm j = (((P.symm j : Fin 4) : ℕ) : ℚ))
    (ns : List String) (n : ℕ) (hnd : ns.Nodup) (i : ℕ) :
    ∀ (is : List ℕ) (init : Table × RNG),
      init.1.names = ns → init.1.Uniform n → i ∈ is → is.Nodup →
      (∀ i2 ∈ is, 4 * i2 + 3 < ns.length) →
      (∀ r, r < n → ∃! a : Fin 4,
        ((init.1).getCol (![ns.getD (4 * i) "", ns.getD (4 * i + 1) "",
          ns.getD (4 * i + 2) "", ns.getD (4 * i + 3) ""] a)).getD r 0 = 1) →
      ∀ r, r < n →
      ∃! a : Fin 4,
        (((is.foldl (fun s i2 => spliceGroup mu sigma bm (ns.getD (4 * i2) "")
          (ns.getD (4 * i2 + 1) "") (ns.getD (4 * i2 + 2) "")
          (ns.getD (4 * i2 + 3) "") s.1 s.2) init).1).getCol
          (![ns.getD (4 * i) "", ns.getD (4 * i + 1) "",
            ns.getD (4 * i + 2) "", ns.getD (4 * i + 3) ""] a)).getD r 0 = 1 := by
  intro is
  induction is with
  | nil => intro init _ _ hf; simp at hf
  | cons i2 is ih =>
    intro init hN hu hf hnd2 hbound hone r hr
    simp only [List.foldl_cons]
    have hb2 : 4 * i2 + 3 < ns.length := hbound i2 (by simp)
    by_cases hii : i2 = i
    · subst hii
      have hd01 : ns.getD (4 * i2) "" ≠ ns.getD (4 * i2 + 1) "" :=
        nodup_getD_ne ns hnd _ _ "" (by omega) (by omega) (by omega)
      have hd02 : ns.getD (4 * i2) "" ≠ ns.getD (4 * i2 + 2) "" :=
        nodup_getD_ne ns hnd _ _ "" (by omega) (by omega) (by omega)
      have hd03 : ns.getD (4 * i2) "" ≠ ns.getD (4 * i2 + 3) "" :=
        nodup_getD_ne ns hnd _ _ "" (by omega) (by omega) (by omega)
      have hd12 : ns.getD (4 * i2 + 1) "" ≠ ns.getD (4 * i2 + 2) "" :=
        nodup_getD_ne ns hnd _ _ "" (by omega) (by omega) (by omega)
      have hd13 : ns.getD (4 * i2 + 1) "" ≠ ns.getD (4 * i2 + 3) "" :=
        nodup_getD_ne ns hnd _ _ "" (by omega) (by omega) (by omega)
      have hd23 : ns.getD (4 * i2 + 2) "" ≠ ns.getD (4 * i2 + 3) "" :=
        nodup_getD_ne ns hnd _ _ "" (by omega) (by omega) (by omega)
      have hL0 : (init.1.getCol (ns.getD (4 * i2) "")).length = n :=
        getCol_length_NU _ (List.getD_mem_of_lt ns _ "" (by omega)) hN hu
      have hL1 : (init.1.getCol (ns.getD (4 * i2 + 1) "")).length = n :=
        getCol_length_NU _ (List.getD_mem_of_lt ns _ "" (by omega)) hN hu
      have hL2 : (init.1.getCol (ns.getD (4 * i2 + 2) "")).length = n :=
        getCol_length_NU _ (List.getD_mem_of_lt ns _ "" (by omega)) hN hu
      have hL3 : (init.1.getCol (ns.getD (4 * i2 + 3) "")).length = n :=
        getCol_length_NU _ (List.getD_mem_of_lt ns _ "" (by omega)) hN hu
      have hest : ∀ r2, r2 < n → ∃! a : Fin 4,
          (((spliceGroup mu sigma bm (ns.getD (4 * i2) "")
            (ns.getD (4 * i2 + 1) "") (ns.getD (4 * i2 + 2) "")
            (ns.getD (4 * i2 + 3) "") init.1 init.2).1).getCol
            (![ns.getD (4 * i2) "", ns.getD (4 * i2 + 1) "",
              ns.getD (4 * i2 + 2) "", ns.getD (4 * i2 + 3) ""] a)).getD
            r2 0 = 1 :=
        fun r2 hr2 => spliceGroup_onehot mu sigma P bm hbm _ _ _ _ init.1
          init.2 n hd01 hd02 hd03 hd12 hd13 hd23 hL0 hL1 hL2 hL3 r2 hr2
          (hone r2 hr2)
      have hcne : ∀ (k : ℕ), k < 4 → ∀ j ∈ is,
          ns.getD (4 * i2 + k) "" ≠ ns.getD (4 * j) "" ∧
          ns.getD (4 * i2 + k) "" ≠ ns.getD (4 * j + 1) "" ∧
          ns.getD (4 * i2 + k) "" ≠ ns.getD (4 * j + 2) "" ∧
          ns.getD (4 * i2 + k) "" ≠ ns.getD (4 * j + 3) "" := by
        intro k hk j hj
        have hbj : 4 * j + 3 < ns.length := hbound j (List.mem_cons_of_mem _ hj)
        have hji : j ≠ i2 := fun he => (List.nodup_cons.mp hnd2).1 (he ▸ hj)
        exact ⟨nodup_getD_ne ns hnd _ _ "" (by omega) (by omega) (by omega),
          nodup_getD_ne ns hnd _ _ "" (by omega) (by omega) (by omega),
          nodup_getD_ne ns hnd _ _ "" (by omega) (by omega) (by omega),
          nodup_getD_ne ns hnd _ _ "" (by omega) (by omega) (by omega)⟩
      have hpres : ∀ a : Fin 4,
          ((is.foldl (fun s j => spliceGroup mu sigma bm (ns.getD (4 * j) "")
            (ns.getD (4 * j + 1) "") (ns.getD (4 * j + 2) "")
            (ns.getD (4 * j + 3) "") s.1 s.2)
            (spliceGroup mu sigma bm (ns.getD (4 * i2) "")
              (ns.getD (4 * i2 + 1) "") (ns.getD (4 * i2 + 2) "")
              (ns.getD (4 * i2 + 3) "") init.1 init.2)).1).getCol
            (![ns.getD (4 * i2) "", ns.getD (4 * i2 + 1) "",
              ns.getD (4 * i2 + 2) "", ns.getD (4 * i2 + 3) ""] a) =
          ((spliceGroup mu sigma bm (ns.getD (4 * i2) "")
            (ns.getD (4 * i2 + 1) "") (ns.getD (4 * i2 + 2) "")
            (ns.getD (4 * i2 + 3) "") init.1 init.2).1).getCol
            (![ns.getD (4 * i2) "", ns.getD (4 * i2 + 1) "",
              ns.getD (4 * i2 + 2) "", ns.getD (4 * i2 + 3) ""] a) := by
        intro a
        fin_cases a
        · exact splice_fold_getCol_ne mu sigma bm ns _ is _
            (fun j hj => hcne 0 (by omega) j hj)
        · exact splice_fold_getCol_ne mu sigma bm ns _ is _
            (fun j hj => hcne 1 (by omega) j hj)
        · exact splice_fold_getCol_ne mu sigma bm ns _ is _
            (fun j hj => hcne 2 (by omega) j hj)
        · exact splice_fold_getCol_ne mu sigma bm ns _ is _
            (fun j hj => hcne 3 (by omega) j hj)
      rcases hest r hr with ⟨k0, hk0, hu0⟩
      refine ⟨k0, ?_, ?_⟩
      · exact (congrArg (fun col => col.getD r 0) (hpres k0)).trans hk0
      · intro y hy
        exact hu0 y ((congrArg (fun col => col.getD r 0) (hpres y)).symm.trans hy)
    · have hfi : i ∈ is := by
        rcases List.mem_cons.mp hf with h | h
        · exact absurd h.symm hii
        · exact h
      have hbi : 4 * i + 3 < ns.length := hbound i hf
      have hNU := spliceGroup_NU mu sigma bm (ns.getD (4 * i2) "")
        (ns.getD (4 * i2 + 1) "") (ns.getD (4 * i2 + 2) "")
        (ns.getD (4 * i2 + 3) "") init.1 init.2 ns n hN hu
        (List.getD_mem_of_lt ns _ "" (by omega))
        (List.getD_mem_of_lt ns _ "" (by omega))
        (List.getD_mem_of_lt ns _ "" (by omega))
        (List.getD_mem_of_lt ns _ "" (by omega))
      have hne : ∀ (k k2 : ℕ), k < 4 → k2 < 4 →
          ns.getD (4 * i + k) "" ≠ ns.getD (4 * i2 + k2) "" := by
        intro k k2 hk hk2
        exact nodup_getD_ne ns hnd _ _ "" (by omega) (by omega) (by omega)
      have hcolne : ∀ a : Fin 4,
          ((spliceGroup mu sigma bm (ns.getD (4 * i2) "")
            (ns.getD (4 * i2 + 1) "") (ns.getD (4 * i2 + 2) "")
            (ns.getD (4 * i2 + 3) "") init.1 init.2).1).getCol
            (![ns.getD (4 * i) "", ns.getD (4 * i + 1) "",
              ns.getD (4 * i + 2) "", ns.getD (4 * i + 3) ""] a) =
          init.1.getCol (![ns.getD (4 * i) "", ns.getD (4 * i + 1) "",
            ns.getD (4 * i + 2) "", ns.getD (4 * i + 3) ""] a) := by
        intro a
        fin_cases a
        · exact spliceGroup_getCol_ne mu sigma bm _ _ _ _ init.1 init.2 _
            (hne 0 0 (by omega) (by omega)) (hne 0 1 (by omega) (by omega))
            (hne 0 2 (by omega) (by omega)) (hne 0 3 (by omega) (by omega))
        · exact spliceGroup_getCol_ne mu sigma bm _ _ _ _ init.1 init.2 _
            (hne 1 0 (by omega) (by omega)) (hne 1 1 (by omega) (by omega))
            (hne 1 2 (by omega) (by omega)) (hne 1 3 (by omega) (by omega))
        · exact spliceGroup_getCol_ne mu sigma bm _ _ _ _ init.1 init.2 _
            (hne 2 0 (by omega) (by omega)) (hne 2 1 (by omega) (by omega))
            (hne 2 2 (by omega) (by omega)) (hne 2 3 (by omega) (by omega))
        · exact spliceGroup_getCol_ne mu sigma bm _ _ _ _ init.1 init.2 _
            (hne 3 0 (by omega) (by omega)) (hne 3 1 (by omega) (by omega))
            (hne 3 2 (by omega) (by omega)) (hne 3 3 (by omega) (by omega))
      have hone2 : ∀ r2, r2 < n → ∃! a : Fin 4,
          (((spliceGroup mu sigma bm (ns.getD (4 * i2) "")
            (ns.getD (4 * i2 + 1) "") (ns.getD (4 * i2 + 2) "")
            (ns.getD (4 * i2 + 3) "") init.1 init.2).1).getCol
            (![ns.getD (4 * i) "", ns.getD (4 * i + 1) "",
              ns.getD (4 * i + 2) "", ns.getD (4 * i + 3) ""] a)).getD
            r2 0 = 1 := by
        intro r2 hr2
        rcases hone r2 hr2 with ⟨k0, hk0, hu0⟩
        refine ⟨k0, ?_, ?_⟩
        · exact (congrArg (fun col => col.getD r2 0) (hcolne k0)).trans hk0
        · intro y hy
          exact hu0 y ((congrArg (fun col => col.getD r2 0) (hcolne y)).symm.trans hy)
      exact ih _ hNU.1 hNU.2 hfi (List.nodup_cons.mp hnd2).2
        (fun j hj => hbound j (List.mem_cons_of_mem _ hj)) hone2 r hr

set_option maxRecDepth 4000 in
/-- **C1**: for the splice-junction and census-income datasets, on input
tables whose one-hot/multi-hot blocks (each splice group of 4 consecutive
columns, each census nominal one-hot block) have exactly one active column
per row, the table produced by `apply_noise` again has exactly one active
column per row in every such block, for every `mu`, `sigma` and seed.  The
splice conjunct needs the 240 group columns to exist and carry distinct
names; the census conjunct needs the schema features to be present, the
nominal blocks to be pairwise disjoint and nonempty. -/
theorem C1_onehot_blocks (E : Env) (S : CensusSchema) (mu sigma : ℚ)
    (seed : ℕ) :
    (∀ (data : Table) (n : ℕ) (out : Table),
      apply_noise E S data mu sigma spliceJunctionName seed = Except.ok out →
      data.names.Nodup → data.Uniform n → 240 ≤ data.names.length →
      (∀ i, i < 60 → ∀ r, r < n → ∃! a : Fin 4,
        (data.getCol (![data.names.getD (4 * i) "",
          data.names.getD (4 * i + 1) "", data.names.getD (4 * i + 2) "",
          data.names.getD (4 * i + 3) ""] a)).getD r 0 = 1) →
      ∀ i, i < 60 → ∀ r, r < n → ∃! a : Fin 4,
        (out.getCol (![data.names.getD (4 * i) "",
          data.names.getD (4 * i + 1) "", data.names.getD (4 * i + 2) "",
          data.names.getD (4 * i + 3) ""] a)).getD r 0 = 1) ∧
    (∀ (data : Table) (N : List String) (n : ℕ) (out : Table) (f : String),
      apply_noise E S data mu sigma censusIncomeName seed = Except.ok out →
      data.names = N → N.Nodup → data.Uniform n →
      (∀ g ∈ S.integer_features, g ∈ N) →
      (∀ g ∈ S.binary_features, g ∈ N) →
      (∀ g ∈ S.ordinal_features, g ∈ N) →
      f ∈ S.nominal_features → S.nominal_features.Nodup →
      (∀ g ∈ S.nominal_features, g ≠ f → ∀ c ∈ N,
        ¬(c.startsWith f = true ∧ c.startsWith g = true)) →
      N.filter (fun c => c.startsWith f) ≠ [] →
      (∀ r, r < n → ∃! k : Fin (N.filter (fun c => c.startsWith f)).length,
        (data.getCol ((N.filter (fun c => c.startsWith f)).get k)).getD
          r 0 = 1) →
      ∀ r, r < n → ∃! k : Fin (N.filter (fun c => c.startsWith f)).length,
        (out.getCol ((N.filter (fun c => c.startsWith f)).get k)).getD
          r 0 = 1) := by
  constructor
  · intro data n out hok hnd hu hlen hone i hi r hr
    have hd : apply_noise E S data mu sigma spliceJunctionName seed =
        Except.ok (apply_noise_to_splice_junction E data mu sigma seed) := by
      simp only [apply_noise]
      rw [if_neg (by decide)]
      simp only [if_true]
    have hout : out = apply_noise_to_splice_junction E data mu sigma seed :=
      Except.ok.inj (hok.symm.trans hd)
    have h := splice_fold_block_onehot mu sigma (spliceBasisOrder E seed)
      (fun j => ((((spliceBasisOrder E seed).symm j : Fin 4) : ℕ) : ℚ))
      (fun j => rfl) data.names n hnd i (List.range 60) (data, seedRNG E seed)
      rfl hu (List.mem_range.mpr hi) (List.nodup_range 60)
      (fun i2 hi2 => by have h60 := List.mem_range.mp hi2; omega)
      (hone i hi) r hr
    rw [hout]
    simp only [apply_noise_to_splice_junction]
    exact h
  · intro data N n out f hok hN hndN hu hint hbin hord hf hndnom hdisj hfil
      hone r hr
    have hd : apply_noise E S data mu sigma censusIncomeName seed =
        Except.ok (apply_noise_to_census_income E S data mu sigma seed) := by
      simp only [apply_noise]
      rw [if_neg (by decide), if_neg (by decide)]
      simp only [if_true]
    have hout : out = apply_noise_to_census_income E S data mu sigma seed :=
      Except.ok.inj (hok.symm.trans hd)
    have h1 := integer_fold_NU mu sigma N n S.integer_features
      (data, seedRNG E seed) hint hN hu
    have h2 := binary_fold_NU mu sigma N n S.binary_features _ hbin h1.1 h1.2
    have h3 := ordinal_fold_NU mu sigma N n S.ordinal_features _ hord
      h2.1 h2.2
    rw [hout]
    simp only [apply_noise_to_census_income]
    exact nominal_fold_block_onehot E mu sigma seed N n f hndN
      S.nominal_features _ h3.1 h3.2 hf hndnom hdisj hfil r hr

theorem apply_noise_splice_ok :
    apply_noise envW schemaW tableSJ 0 0 spliceJunctionName 0 =
      Except.ok (apply_noise_to_splice_junction envW tableSJ 0 0 0) := by
  simp only [apply_noise]
  rw [if_neg (by decide)]
  simp only [if_true]

theorem apply_noise_census_ok :
    apply_noise envZ schemaN tableCI 0 0 censusIncomeName 0 =
      Except.ok (apply_noise_to_census_income envZ schemaN tableCI 0 0 0) := by
  simp only [apply_noise]
  rw [if_neg (by decide), if_neg (by decide)]
  simp only [if_true]

set_option maxRecDepth 100000 in
set_option maxHeartbeats 8000000 in
theorem tableSJ_names_nodup : tableSJ.names.Nodup := by decide

set_option maxRecDepth 100000 in
set_option maxHeartbeats 8000000 in
theorem tableSJ_uniform : tableSJ.Uniform 1 := by decide

set_option maxRecDepth 100000 in
set_option maxHeartbeats 8000000 in
theorem tableSJ_len : 240 ≤ tableSJ.names.length := by decide

set_option maxRecDepth 100000 in
set_option maxHeartbeats 8000000 in
theorem tableSJ_blocks_onehot : ∀ i, i < 60 → ∀ r, r < 1 → ∃! a : Fin 4,
    (tableSJ.getCol (![tableSJ.names.getD (4 * i) "",
      tableSJ.names.getD (4 * i + 1) "", tableSJ.names.getD (4 * i + 2) "",
      tableSJ.names.getD (4 * i + 3) ""] a)).getD r 0 = 1 := by decide

set_option maxRecDepth 100000 in
theorem tableCI_disj : ∀ g ∈ schemaN.nominal_features, g ≠ "Nom" →
    ∀ c ∈ tableCI.names,
      ¬(c.startsWith "Nom" = true ∧ c.startsWith g = true) := by decide

set_option maxRecDepth 100000 in
theorem tableCI_filter_ne :
    tableCI.names.filter (fun c => c.startsWith "Nom") ≠ [] :=
  of_decide_eq_true (by with_unfolding_all rfl)

set_option maxRecDepth 100000 in
set_option maxHeartbeats 1000000 in
theorem tableCI_blocks_onehot : ∀ r, r < 2 →
    ∃! k : Fin ((tableCI.names.filter (fun c => c.startsWith "Nom")).length),
      (tableCI.getCol ((tableCI.names.filter
        (fun c => c.startsWith "Nom")).get k)).getD r 0 = 1 :=
  of_decide_eq_true (by with_unfolding_all rfl)

theorem C1_witness :
    (∃! a : Fin 4,
      ((apply_noise_to_splice_junction envW tableSJ 0 0 0).getCol
        (![tableSJ.names.getD (4 * 0) "", tableSJ.names.getD (4 * 0 + 1) "",
          tableSJ.names.getD (4 * 0 + 2) "",
          tableSJ.names.getD (4 * 0 + 3) ""] a)).getD 0 0 = 1) ∧
    (∃! k : Fin ((tableCI.names.filter (fun c => c.startsWith "Nom")).length),
      ((apply_noise_to_census_income envZ schemaN tableCI 0 0 0).getCol
        ((tableCI.names.filter (fun c => c.startsWith "Nom")).get k)).getD
        0 0 = 1) :=
  ⟨(C1_onehot_blocks envW schemaW 0 0 0).1 tableSJ 1
      (apply_noise_to_splice_junction envW tableSJ 0 0 0)
      apply_noise_splice_ok tableSJ_names_nodup tableSJ_uniform tableSJ_len
      tableSJ_blocks_onehot 0 (by decide) 0 (by decide),
    (C1_onehot_blocks envZ schemaN 0 0 0).2 tableCI tableCI.names 2
      (apply_noise_to_census_income envZ schemaN tableCI 0 0 0) "Nom"
      apply_noise_census_ok rfl (by decide) (by decide) (by decide)
      (by decide) (by decide) (by decide) (by decide) tableCI_disj
      tableCI_filter_ne tableCI_blocks_onehot 0 (by decide)⟩
